import Mathlib

/-!
Shallow embedding of the family-tree generator (person.py, person_factory.py,
family_tree.py, utils.py) and proofs about it.

Randomness is modelled by an explicit stream of natural-number draws
(`Draws := List Nat`); an exhausted stream yields 0.  Python floats are
modelled by exact rationals (verified to agree with the source's float
arithmetic on the truncation boundaries relevant here).  Python object
identity is modelled by indices into the population list.
-/

/-- Stream of raw random draws; each call to the random source pops one. -/
abbrev Draws : Type := List Nat

/-- Pop one raw draw from the stream (0 once exhausted). -/
def drawNat : Draws → Nat × Draws
  | [] => (0, [])
  | x :: xs => (x, xs)

/-- Python's random.randint(lo, hi): an integer in [lo, hi], both ends inclusive. -/
def randint (lo hi : Int) (r : Draws) : Int × Draws :=
  let p := drawNat r
  (lo + (p.1 : Int) % (hi - lo + 1), p.2)

/-- Python's random.random(): a uniform rational in [0, 1), 53 bits of precision. -/
def uniformUnit (x : Nat) : ℚ :=
  ((x % 2 ^ 53 : Nat) : ℚ) / (2 ^ 53 : ℚ)

/-- Cumulative-weight walk used by random.choices: first item whose cumulative
weight exceeds the drawn point (falls through to the last item). -/
def pickWeighted (u : ℚ) : List (String × ℚ) → String
  | [] => ""
  | [e] => e.1
  | e :: rest => if u < e.2 then e.1 else pickWeighted (u - e.2) rest

/-- Python's random.choices(names, weights)[0]: weighted selection of one item. -/
def choicesWeighted (items : List (String × ℚ)) (r : Draws) : String × Draws :=
  let p := drawNat r
  let total := (items.map Prod.snd).sum
  (pickWeighted (uniformUnit p.1 * total) items, p.2)

/-- Python's random.choice(lst): uniform selection of one item. -/
def randChoice (items : List String) (r : Draws) : String × Draws :=
  let p := drawNat r
  (items.getD (p.1 % items.length) "", p.2)

/-- Python's int() applied to a float: truncation toward zero. -/
def ratTrunc (q : ℚ) : Int :=
  if 0 ≤ q then ⌊q⌋ else ⌈q⌉

/-- utils.get_decade_string: year floor-divided by 10, times 10, suffixed "s". -/
def get_decade_string (year : Int) : String :=
  toString (Int.fdiv year 10 * 10) ++ "s"

/-- person.Person: one individual.  partner / children / parents hold indices
into the population list (the embedding of Python reference identity). -/
structure Person where
  year_born : Int
  year_died : Int
  first_name : String
  last_name : String
  gender : String
  partner : Option Nat
  children : List Nat
  parents : Option (Nat × Option Nat)
deriving DecidableEq, Repr

instance : Inhabited Person :=
  ⟨⟨0, 0, "", "", "", none, [], none⟩⟩

/-- person.Person.get_full_name: first name, space, last name. -/
def full_name (p : Person) : String :=
  p.first_name ++ " " ++ p.last_name

/-- person_factory.PersonFactory's loaded tables, abstracted over the CSV
contents: each field is the in-memory lookup structure the source builds. -/
structure Factory where
  life_expectancy : Int → ℚ
  first_names : String → String → List (String × ℚ)
  gender_probability : String → List (String × ℚ)
  last_names_with_frequencies : String → List (String × ℚ)
  birth_rate : String → ℚ
  marriage_rate : String → ℚ

/-- person_factory.get_year_died: truncated life expectancy for the birth year
plus a uniform offset in [-10, 10], added to the birth year. -/
def get_year_died (fac : Factory) (year_born : Int) (r : Draws) : Int × Draws :=
  let expectancy := ratTrunc (fac.life_expectancy year_born)
  let v := randint (-10) 10 r
  (year_born + (expectancy + v.1), v.2)

/-- person_factory.get_first_name: weighted draw from the decade/gender table. -/
def get_first_name (fac : Factory) (year_born : Int) (gender : String) (r : Draws) :
    String × Draws :=
  choicesWeighted (fac.first_names (get_decade_string year_born) gender) r

/-- person_factory.get_last_name: descendants draw uniformly from the founder
surnames, others draw rank-weighted from the decade's surname table. -/
def get_last_name (fac : Factory) (year_born : Int) (is_descendant : Bool)
    (original_last_names : List String) (r : Draws) : String × Draws :=
  if is_descendant then
    randChoice original_last_names r
  else
    choicesWeighted (fac.last_names_with_frequencies (get_decade_string year_born)) r

/-- person_factory.assign_gender: weighted draw from the decade's gender table. -/
def assign_gender (fac : Factory) (year_born : Int) (r : Draws) : String × Draws :=
  choicesWeighted (fac.gender_probability (get_decade_string year_born)) r

/-- person_factory.create_person: samples death year, first name and last name
(in that order) and builds the record, unattached except for parents. -/
def create_person (fac : Factory) (year_born : Int) (gender : String)
    (is_descendant : Bool) (original_last_names : List String)
    (parents : Option (Nat × Option Nat)) (r : Draws) : Person × Draws :=
  let d := get_year_died fac year_born r
  let f := get_first_name fac year_born gender d.2
  let l := get_last_name fac year_born is_descendant original_last_names f.2
  (⟨year_born, d.1, f.1, l.1, gender, none, [], parents⟩, l.2)

/-- person_factory.should_have_partner: Bernoulli draw against the decade's
marriage rate. -/
def should_have_partner (fac : Factory) (year_born : Int) (r : Draws) :
    Bool × Draws :=
  let p := drawNat r
  (decide (uniformUnit p.1 < fac.marriage_rate (get_decade_string year_born)), p.2)

/-- family_tree.FamilyTree's mutable population state: the ordered list of all
people and the insertion-ordered birth-decade buckets (of indices). -/
structure TreeState where
  all_people : List Person
  people_by_birth_decade : List (String × List Nat)
deriving DecidableEq, Repr

/-- Dereference an index into the population (out-of-range yields the dummy). -/
def personAt (s : TreeState) (i : Nat) : Person :=
  s.all_people.getD i default

/-- Replace the person at an index by a transformed copy (identity elsewhere). -/
def updateAt (f : Person → Person) : Nat → List Person → List Person
  | _, [] => []
  | 0, p :: ps => f p :: ps
  | n + 1, p :: ps => p :: updateAt f n ps

/-- In-place mutation of one person record, as done through Python references. -/
def modifyPerson (s : TreeState) (i : Nat) (f : Person → Person) : TreeState :=
  { s with all_people := updateAt f i s.all_people }

/-- family_tree._add_to_decade: append the new index to its decade bucket,
creating the bucket at the end on first use. -/
def addToDecade : List (String × List Nat) → String → Nat → List (String × List Nat)
  | [], d, i => [(d, [i])]
  | e :: rest, d, i =>
      if e.1 = d then (e.1, e.2 ++ [i]) :: rest else e :: addToDecade rest d i

/-- family_tree.add_person: append to the population and to its decade bucket. -/
def addPerson (s : TreeState) (p : Person) : TreeState :=
  { all_people := s.all_people ++ [p],
    people_by_birth_decade :=
      addToDecade s.people_by_birth_decade (get_decade_string p.year_born)
        s.all_people.length }

/-- person_factory.create_partner: offset the birth year by a uniform draw in
[-10, 10]; beyond 2120 return none with the state untouched; otherwise build
the partner (gender from its own decade, no parents) and link both partner
references, the new record receiving the index it will get on insertion. -/
def create_partner (fac : Factory) (s : TreeState) (pid : Nat)
    (is_descendant : Bool) (original_last_names : List String) (r : Draws) :
    TreeState × Option Person × Draws :=
  let o := randint (-10) 10 r
  let partner_year_born := (personAt s pid).year_born + o.1
  if partner_year_born > 2120 then (s, none, o.2)
  else
    let g := assign_gender fac partner_year_born o.2
    let c := create_person fac partner_year_born g.1 is_descendant
      original_last_names none g.2
    let sid := s.all_people.length
    let s1 := modifyPerson s pid (fun p => { p with partner := some sid })
    (s1, some { c.1 with partner := some pid }, c.2)

/-- family_tree.calculate_num_children: uniform draw in
[max(0, ceil(rate - 1.5)), ceil(rate + 1.5)], one fewer (floored at 0) without
a partner. -/
def calculate_num_children (fac : Factory) (year_born : Int) (has_partner : Bool)
    (r : Draws) : Int × Draws :=
  let rate := fac.birth_rate (get_decade_string year_born)
  let min_children := max 0 ⌈rate - 3 / 2⌉
  let max_children := ⌈rate + 3 / 2⌉
  let n := randint min_children max_children r
  if has_partner then n else (max 0 (n.1 - 1), n.2)

/-- family_tree.distribute_birth_years: one child draws a uniform year in
[parent + 25, parent + 45]; several children are spread by exact linear
interpolation over that window, each year truncated to an integer. -/
def distribute_birth_years (parent_year_born : Int) (num_children : Int)
    (r : Draws) : List Int × Draws :=
  if num_children = 0 then ([], r)
  else
    let start_year := parent_year_born + 25
    let end_year := parent_year_born + 45
    if num_children = 1 then
      let y := randint start_year end_year r
      ([y.1], y.2)
    else
      let step : ℚ := ((end_year - start_year : Int) : ℚ) / ((num_children - 1 : Int) : ℚ)
      ((List.range num_children.toNat).map
        (fun i : Nat => ratTrunc ((start_year : ℚ) + (i : ℚ) * step)), r)

/-- person.add_child on the popped person and, when present, on its partner:
append the new child's index to their children lists. -/
def addChildLinks (s : TreeState) (pid : Nat) (partnerOpt : Option Nat)
    (cid : Nat) : TreeState :=
  let s1 := modifyPerson s pid (fun p => { p with children := p.children ++ [cid] })
  match partnerOpt with
  | some pj => modifyPerson s1 pj (fun p => { p with children := p.children ++ [cid] })
  | none => s1

/-- The spouse step of the child loop: run create_partner on the child and,
when a partner came back, add it to the tree. -/
def insertChildPartner (fac : Factory) (s : TreeState) (cid : Nat) (r : Draws) :
    TreeState × Draws :=
  let cp := create_partner fac s cid false [] r
  match cp.2.1 with
  | some sp => (addPerson cp.1 sp, cp.2.2)
  | none => (cp.1, cp.2.2)

/-- One pass of the inner child loop of family_tree.generate_tree: skip years
past 2120; otherwise create the child with the parent pair (the popped person
and its optional partner), link it into the parents' child lists, insert it,
possibly create and insert a spouse, and enqueue the child. -/
def processChild (fac : Factory) (original_last_names : List String) (pid : Nat)
    (partnerOpt : Option Nat) (acc : TreeState × List Nat × Draws)
    (birth_year : Int) : TreeState × List Nat × Draws :=
  let s := acc.1
  let queue := acc.2.1
  let r := acc.2.2
  if birth_year > 2120 then acc
  else
    let g := assign_gender fac birth_year r
    let c := create_person fac birth_year g.1 true original_last_names
      (some (pid, partnerOpt)) g.2
    let cid := s.all_people.length
    let s2 := addChildLinks s pid partnerOpt cid
    let s3 := addPerson s2 c.1
    let w := should_have_partner fac birth_year c.2
    if w.1 then
      let ip := insertChildPartner fac s3 cid w.2
      (ip.1, queue ++ [cid], ip.2)
    else
      (s3, queue ++ [cid], w.2)

/-- Work-queue state of the generation loop of family_tree.generate_tree. -/
structure GenState where
  tree : TreeState
  queue : List Nat
  processed : List Nat
  rand : Draws

/-- One iteration of the while loop of family_tree.generate_tree: pop, skip if
already processed, draw the child count, and run the child loop. -/
def stepOnce (fac : Factory) (original_last_names : List String) (g : GenState) :
    GenState :=
  match g.queue with
  | [] => g
  | pid :: rest =>
    if g.processed.contains pid then { g with queue := rest }
    else
      let processed' := g.processed ++ [pid]
      let person := personAt g.tree pid
      let partnerOpt := person.partner
      let n := calculate_num_children fac person.year_born partnerOpt.isSome g.rand
      if n.1 = 0 then
        { tree := g.tree, queue := rest, processed := processed', rand := n.2 }
      else
        let elder_year :=
          match partnerOpt with
          | some pj => min person.year_born (personAt g.tree pj).year_born
          | none => person.year_born
        let ys := distribute_birth_years elder_year n.1 n.2
        let res := ys.1.foldl (processChild fac original_last_names pid partnerOpt)
          (g.tree, rest, ys.2)
        { tree := res.1, queue := res.2.1, processed := processed', rand := res.2.2 }

/-- The while loop of family_tree.generate_tree, run on explicit fuel (the
source terminates because birth years strictly grow and stop at 2120). -/
def generateLoop (fac : Factory) (original_last_names : List String) :
    Nat → GenState → GenState
  | 0, g => g
  | fuel + 1, g =>
      if g.queue = [] then g
      else generateLoop fac original_last_names fuel
        (stepOnce fac original_last_names g)

/-- First founder of family_tree._initialize_original_people: created for
1950, renamed Desmond Jones, partnered with the (upcoming) second founder. -/
def founder1 (fac : Factory) (r : Draws) : Person × Draws :=
  let c1 := create_person fac 1950 "male" false ["Jones", "Smith"] none r
  ({ c1.1 with first_name := "Desmond", last_name := "Jones", partner := some 1 }, c1.2)

/-- Second founder: created for 1950 from the remaining draws, renamed Molly
Smith, partnered with the first founder. -/
def founder2 (fac : Factory) (r : Draws) : Person × Draws :=
  let c2 := create_person fac 1950 "female" false ["Jones", "Smith"] none r
  ({ c2.1 with first_name := "Molly", last_name := "Smith", partner := some 0 }, c2.2)

/-- family_tree._initialize_original_people: create the two founders, override
their names with the fixed ones, link them as partners, and insert both. -/
def initTree (fac : Factory) (r : Draws) : TreeState × Draws :=
  let f1 := founder1 fac r
  let f2 := founder2 fac f1.2
  (addPerson (addPerson { all_people := [], people_by_birth_decade := [] } f1.1) f2.1,
    f2.2)

/-- Generation state after a given number of loop iterations, starting from
the freshly initialized tree with the first founder enqueued (the source's
generate_tree entry, with the loop cut at the given fuel). -/
def genStateAt (fac : Factory) (r : Draws) (fuel : Nat) : GenState :=
  let s := initTree fac r
  let original_last_names := [(personAt s.1 0).last_name, (personAt s.1 1).last_name]
  generateLoop fac original_last_names fuel
    { tree := s.1, queue := [0], processed := [], rand := s.2 }

/-- The population state produced by family_tree.generate_tree. -/
def runGeneration (fac : Factory) (r : Draws) (fuel : Nat) : TreeState :=
  (genStateAt fac r fuel).tree

/-- family_tree.build_people_alive_by_decade: register every person in every
decade bucket from their birth decade through their death decade. -/
def build_people_alive_by_decade (s : TreeState) : List (String × List Nat) :=
  (List.range s.all_people.length).foldl
    (fun m i =>
      let p := personAt s i
      let b := Int.fdiv p.year_born 10 * 10
      let d := Int.fdiv p.year_died 10 * 10
      ((List.range ((d - b).toNat / 10 + 1)).map (fun k => b + 10 * (k : Int))).foldl
        (fun m' dec => addToDecade m' (toString dec ++ "s") i) m)
    []

/-- family_tree.get_total_count: size of the population list. -/
def get_total_count (s : TreeState) : Nat :=
  s.all_people.length

/-- family_tree.get_birth_count_by_decade: each decade bucket's size. -/
def get_birth_count_by_decade (s : TreeState) : List (String × Nat) :=
  s.people_by_birth_decade.map (fun e => (e.1, e.2.length))

/-- Occurrence-count step of family_tree.find_duplicate_names: bump the name's
entry in place, appending a fresh entry on first sight. -/
def bumpName : List (String × Nat) → String → List (String × Nat)
  | [], nm => [(nm, 1)]
  | e :: rest, nm =>
      if e.1 = nm then (e.1, e.2 + 1) :: rest else e :: bumpName rest nm

/-- family_tree.find_duplicate_names: count full names over the population,
keep those seen more than once, and sort ascending. -/
def find_duplicate_names (s : TreeState) : List String :=
  let counts := s.all_people.foldl (fun acc p => bumpName acc (full_name p)) []
  let duplicates := (counts.filter (fun e => 1 < e.2)).map Prod.fst
  List.insertionSort (fun a b => a ≤ b) duplicates

/-! Concrete data used for witnesses and counterexamples: a factory whose
tables are small but legal, and a draw stream steering one three-generation
run (founder couple, two children, one married-in spouse, two grandchildren). -/

/-- Witness factory: constant life expectancy 70, singleton name tables,
birth rate 2 in the 1950s and 1970s, marriage certain in the 1970s. -/
def fac1 : Factory where
  life_expectancy := fun _ => 70
  first_names := fun _ _ => [("Alex", 1)]
  gender_probability := fun _ => [("female", 1)]
  last_names_with_frequencies := fun _ => [("Lee", 1)]
  birth_rate := fun d => if d = "1950s" then 2 else if d = "1970s" then 2 else 0
  marriage_rate := fun d => if d = "1970s" then 1 else 0

/-- Draw stream for the witness run: founders get two children (draw 1 at
position 6), the 1975 child's spouse is born 10 years later (draw 20 at
position 12), and that couple gets two children (draw 1 at position 22). -/
def r1 : Draws := [0, 0, 0, 0, 0, 0, 1, 0, 0, 0, 0, 0, 20, 0, 0, 0, 0, 0, 0, 0, 0, 0, 1]

/-- Counterexample factory for the death-year claim: life expectancy 5. -/
def facBad : Factory where
  life_expectancy := fun _ => 5
  first_names := fun _ _ => [("Alex", 1)]
  gender_probability := fun _ => [("female", 1)]
  last_names_with_frequencies := fun _ => [("Lee", 1)]
  birth_rate := fun _ => 0
  marriage_rate := fun _ => 0

/-! Arithmetic facts about the draw primitives. -/

/-- A natural number cast to an integer and reduced modulo any integer stays
nonnegative. -/
theorem natCast_emod_nonneg (x : Nat) (m : Int) : 0 ≤ (x : Int) % m := by
  rcases eq_or_ne m 0 with h | h
  · simp [h]
  · exact Int.emod_nonneg _ h

/-- randint stays within its bounds when they are ordered. -/
theorem randint_mem (lo hi : Int) (r : Draws) (h : lo ≤ hi) :
    lo ≤ (randint lo hi r).1 ∧ (randint lo hi r).1 ≤ hi := by
  have hpos : 0 < hi - lo + 1 := by omega
  constructor
  · have := natCast_emod_nonneg (drawNat r).1 (hi - lo + 1)
    simp only [randint]
    omega
  · have := Int.emod_lt_of_pos ((drawNat r).1 : Int) hpos
    simp only [randint]
    omega

/-- Every value in randint's range is realised by some leading draw. -/
theorem randint_hit (lo hi k : Int) (r : Draws) (h1 : lo ≤ k) (h2 : k ≤ hi) :
    randint lo hi ((k - lo).toNat :: r) = (k, r) := by
  simp only [randint, drawNat]
  have hc : (((k - lo).toNat : Nat) : Int) = k - lo := by omega
  rw [hc, Int.emod_eq_of_lt (by omega) (by omega)]
  have h3 : lo + (k - lo) = k := by omega
  rw [h3]

/-- The weighted pick always returns the name of some listed item. -/
theorem pickWeighted_mem (u : ℚ) (items : List (String × ℚ)) (h : items ≠ []) :
    pickWeighted u items ∈ items.map Prod.fst := by
  induction items generalizing u with
  | nil => exact absurd rfl h
  | cons e rest ih =>
    cases rest with
    | nil => simp [pickWeighted]
    | cons e2 rest2 =>
      by_cases hu : u < e.2
      · simp [pickWeighted, hu]
      · simp only [pickWeighted, if_neg hu, List.map_cons, List.mem_cons]
        exact Or.inr (List.mem_cons.mp (ih (u - e.2) (by simp)))

/-- The uniform pick from a nonempty list returns a member. -/
theorem randChoice_mem (items : List String) (r : Draws) (h : items ≠ []) :
    (randChoice items r).1 ∈ items := by
  have hlen : 0 < items.length := List.length_pos.mpr h
  have hm : (drawNat r).1 % items.length < items.length := Nat.mod_lt _ hlen
  have := List.getD_eq_getElem items "" hm
  simp only [randChoice]
  rw [this]
  exact List.getElem_mem _

/-- Deterministic description of the several-children branch of
distribute_birth_years: the draw stream is untouched, the result does not
depend on it, and the years are the truncated linear interpolation over
[parent + 25, parent + 45]. -/
theorem distribute_multi (y n : Int) (r r' : Draws) (hn : 1 < n) :
    (distribute_birth_years y n r).2 = r ∧
    (distribute_birth_years y n r).1 = (distribute_birth_years y n r').1 ∧
    (distribute_birth_years y n r).1 =
      (List.range n.toNat).map
        (fun i : Nat =>
          ratTrunc (((y + 25 : Int) : ℚ) + (i : ℚ) * (20 / ((n - 1 : Int) : ℚ)))) := by
  have h0 : ¬(n = 0) := by omega
  have h1 : ¬(n = 1) := by omega
  simp only [distribute_birth_years, if_neg h0, if_neg h1]
  refine ⟨trivial, trivial, ?_⟩
  apply List.map_congr_left
  intro i _
  congr 1
  have : ((y + 45 - (y + 25) : Int) : ℚ) = 20 := by push_cast; ring
  rw [this]

/-- Claim C4 property at one factory and birth year: with a partner the drawn
count lies in [max(0, ceil(rate - 1.5)), ceil(rate + 1.5)], every integer of
that range is realised by some leading draw, and without a partner the result
is the with-partner draw minus one, floored at zero. -/
def NumChildrenSpec (fac : Factory) (year_born : Int) : Prop :=
  (∀ r : Draws,
      max 0 ⌈fac.birth_rate (get_decade_string year_born) - 3 / 2⌉ ≤
        (calculate_num_children fac year_born true r).1 ∧
      (calculate_num_children fac year_born true r).1 ≤
        ⌈fac.birth_rate (get_decade_string year_born) + 3 / 2⌉) ∧
  (∀ k : Int,
      max 0 ⌈fac.birth_rate (get_decade_string year_born) - 3 / 2⌉ ≤ k →
      k ≤ ⌈fac.birth_rate (get_decade_string year_born) + 3 / 2⌉ →
      ∀ r : Draws,
        (calculate_num_children fac year_born true
          ((k - max 0 ⌈fac.birth_rate (get_decade_string year_born) - 3 / 2⌉).toNat
            :: r)).1 = k) ∧
  (∀ r : Draws,
      (calculate_num_children fac year_born false r).1 =
        max 0 ((calculate_num_children fac year_born true r).1 - 1))

/-- C4: calculate_num_children draws uniformly from the inclusive range
[max(0, ceil(b - 1.5)), ceil(b + 1.5)] of the decade's birth rate b, and a
person without a partner gets one child fewer, floored at zero. -/
theorem claim_c4 (fac : Factory) (year_born : Int)
    (hb : 0 ≤ fac.birth_rate (get_decade_string year_born)) :
    NumChildrenSpec fac year_born := by
  set b := fac.birth_rate (get_decade_string year_born) with hbdef
  have hhi : (0 : Int) ≤ ⌈b + 3 / 2⌉ := Int.ceil_nonneg (by linarith)
  have hlohi : max 0 ⌈b - 3 / 2⌉ ≤ ⌈b + 3 / 2⌉ := by
    apply max_le (by omega)
    exact Int.ceil_le_ceil (by linarith)
  refine ⟨?_, ?_, ?_⟩
  · intro r
    have := randint_mem (max 0 ⌈b - 3 / 2⌉) ⌈b + 3 / 2⌉ r hlohi
    simpa [calculate_num_children] using this
  · intro k hk1 hk2 r
    have := randint_hit (max 0 ⌈b - 3 / 2⌉) ⌈b + 3 / 2⌉ k r hk1 hk2
    simp only [calculate_num_children]
    rw [this]
    simp
  · intro r
    simp [calculate_num_children]

/-- Closed witness for C4 at the concrete factory fac1 and year 1950. -/
theorem claim_c4_witness : NumChildrenSpec fac1 1950 :=
  claim_c4 fac1 1950 (by with_unfolding_all decide)

/-- Claim C5 property: with more than one child the spread is the draw-free
truncated linear interpolation over the fertile window (and for (1950, 4) it
is exactly [1975, 1981, 1988, 1995]); with exactly one child a uniform year in
[parent + 25, parent + 45] is drawn, every year of the window being reachable. -/
def DistributeSpec : Prop :=
  (∀ (y n : Int) (r r' : Draws), 1 < n →
      (distribute_birth_years y n r).2 = r ∧
      (distribute_birth_years y n r).1 = (distribute_birth_years y n r').1 ∧
      (distribute_birth_years y n r).1 =
        (List.range n.toNat).map
          (fun i : Nat =>
            ratTrunc (((y + 25 : Int) : ℚ) + (i : ℚ) * (20 / ((n - 1 : Int) : ℚ)))) ∧
      (distribute_birth_years y n r).1.length = n.toNat) ∧
  (∀ r : Draws, (distribute_birth_years 1950 4 r).1 = [1975, 1981, 1988, 1995]) ∧
  (∀ (y : Int) (r : Draws),
      (distribute_birth_years y 1 r).1 = [y + 25 + ((drawNat r).1 : Int) % 21] ∧
      y + 25 ≤ y + 25 + ((drawNat r).1 : Int) % 21 ∧
      y + 25 + ((drawNat r).1 : Int) % 21 ≤ y + 45) ∧
  (∀ (y k : Int) (r : Draws), y + 25 ≤ k → k ≤ y + 45 →
      (distribute_birth_years y 1 ((k - (y + 25)).toNat :: r)).1 = [k])

/-- C5: distribute_birth_years is deterministic for more than one child
(truncated linear interpolation over the fertile window, e.g. 1950 with 4
children gives [1975, 1981, 1988, 1995]); only the single-child case draws,
uniformly over the window. -/
theorem claim_c5 : DistributeSpec := by
  refine ⟨?_, ?_, ?_, ?_⟩
  · intro y n r r' hn
    obtain ⟨h1, h2, h3⟩ := distribute_multi y n r r' hn
    refine ⟨h1, h2, h3, ?_⟩
    rw [h3]
    simp
  · intro r
    rw [(distribute_multi 1950 4 r r (by norm_num)).2.2]
    with_unfolding_all decide
  · intro y r
    have hmod : ((drawNat r).1 : Int) % (y + 45 - (y + 25) + 1) = ((drawNat r).1 : Int) % 21 := by
      have : y + 45 - (y + 25) + 1 = 21 := by ring
      rw [this]
    have h0 := natCast_emod_nonneg (drawNat r).1 21
    have h21 : ((drawNat r).1 : Int) % 21 < 21 := Int.emod_lt_of_pos _ (by norm_num)
    refine ⟨?_, by omega, by omega⟩
    simp only [distribute_birth_years, randint, if_neg (by omega : ¬(1 : Int) = 0), if_pos rfl]
    rw [hmod]
    simp
  · intro y k r h1 h2
    have := randint_hit (y + 25) (y + 45) k r h1 h2
    simp only [distribute_birth_years, if_neg (by omega : ¬(1 : Int) = 0), if_pos rfl]
    rw [this]
    simp

/-- Closed witness for C5: the deterministic spread at (1950, 4) and the
single-child draw at (1950, offset draw 7). -/
theorem claim_c5_witness :
    (distribute_birth_years 1950 4 []).1 = [1975, 1981, 1988, 1995] ∧
    (distribute_birth_years 1950 4 []).2 = [] ∧
    (distribute_birth_years 1950 1 [7]).1 = [1982] :=
  ⟨claim_c5.2.1 [], (claim_c5.1 1950 4 [] [] (by norm_num)).1,
    claim_c5.2.2.2 1950 1982 [] (by norm_num) (by norm_num)⟩

/-! Structural lemmas about the population-state operations. -/

/-- updateAt preserves the list length. -/
theorem updateAt_length (f : Person → Person) (j : Nat) (l : List Person) :
    (updateAt f j l).length = l.length := by
  induction l generalizing j with
  | nil => cases j <;> rfl
  | cons p ps ih =>
    cases j with
    | zero => rfl
    | succ j' => simp [updateAt, ih]

/-- getD after updateAt at the same (in-range) index applies the function. -/
theorem updateAt_getD_eq (f : Person → Person) (j : Nat) (l : List Person)
    (h : j < l.length) : (updateAt f j l).getD j default = f (l.getD j default) := by
  induction l generalizing j with
  | nil => simp at h
  | cons p ps ih =>
    cases j with
    | zero => rfl
    | succ j' =>
      simp only [updateAt, List.getD_cons_succ]
      exact ih j' (by simpa using h)

/-- getD after updateAt at any other index is unchanged. -/
theorem updateAt_getD_ne (f : Person → Person) (j i : Nat) (l : List Person)
    (h : i ≠ j) : (updateAt f j l).getD i default = l.getD i default := by
  induction l generalizing i j with
  | nil => cases j <;> rfl
  | cons p ps ih =>
    cases j with
    | zero =>
      cases i with
      | zero => exact absurd rfl h
      | succ i' => rfl
    | succ j' =>
      cases i with
      | zero => rfl
      | succ i' =>
        simp only [updateAt, List.getD_cons_succ]
        exact ih j' i' (by omega)

/-- updateAt beyond the end of the list does nothing. -/
theorem updateAt_out (f : Person → Person) (j : Nat) (l : List Person)
    (h : l.length ≤ j) : updateAt f j l = l := by
  induction l generalizing j with
  | nil => cases j <;> rfl
  | cons p ps ih =>
    cases j with
    | zero => simp at h
    | succ j' => simp [updateAt, ih j' (by simpa using h)]

/-- modifyPerson keeps the population length. -/
theorem modifyPerson_length (s : TreeState) (i : Nat) (f : Person → Person) :
    (modifyPerson s i f).all_people.length = s.all_people.length :=
  updateAt_length f i s.all_people

/-- modifyPerson rewrites exactly the addressed (in-range) person. -/
theorem personAt_modifyPerson_eq (s : TreeState) (i : Nat) (f : Person → Person)
    (h : i < s.all_people.length) : personAt (modifyPerson s i f) i = f (personAt s i) :=
  updateAt_getD_eq f i s.all_people h

/-- modifyPerson leaves every other person unchanged. -/
theorem personAt_modifyPerson_ne (s : TreeState) (i j : Nat) (f : Person → Person)
    (h : j ≠ i) : personAt (modifyPerson s i f) j = personAt s j :=
  updateAt_getD_ne f i j s.all_people h

/-- modifyPerson does not touch the decade buckets. -/
theorem modifyPerson_decades (s : TreeState) (i : Nat) (f : Person → Person) :
    (modifyPerson s i f).people_by_birth_decade = s.people_by_birth_decade := rfl

/-- addPerson appends exactly one person. -/
theorem addPerson_length (s : TreeState) (p : Person) :
    (addPerson s p).all_people.length = s.all_people.length + 1 := by
  simp [addPerson]

/-- Existing people are unchanged by addPerson. -/
theorem personAt_addPerson_lt (s : TreeState) (p : Person) (i : Nat)
    (h : i < s.all_people.length) : personAt (addPerson s p) i = personAt s i := by
  simp only [personAt, addPerson]
  exact List.getD_append _ _ _ _ h

/-- The appended person sits at the old length. -/
theorem personAt_addPerson_eq (s : TreeState) (p : Person) :
    personAt (addPerson s p) s.all_people.length = p := by
  simp only [personAt, addPerson]
  rw [List.getD_append_right _ _ _ _ (le_refl _)]
  simp

/-- Claim C6 property at one factory, state, person index and draw stream:
the drawn offset is in [-10, 10]; the result is absent exactly when the
offset pushes the birth year past 2120, and then the state is untouched;
otherwise the new partner record carries the offset birth year, no parents, a
decade-sampled gender, and both partner references are linked (the stored
index being the one the partner receives on insertion); and every offset in
[-10, 10] is realised by some leading draw. -/
def CreatePartnerSpec (fac : Factory) (s : TreeState) (pid : Nat) (r : Draws) : Prop :=
  (-10 ≤ -10 + ((drawNat r).1 : Int) % 21 ∧ -10 + ((drawNat r).1 : Int) % 21 ≤ 10) ∧
  ((create_partner fac s pid false [] r).2.1 = none ↔
    2120 < (personAt s pid).year_born + (-10 + ((drawNat r).1 : Int) % 21)) ∧
  (2120 < (personAt s pid).year_born + (-10 + ((drawNat r).1 : Int) % 21) →
    (create_partner fac s pid false [] r).1 = s) ∧
  (∀ sp : Person, (create_partner fac s pid false [] r).2.1 = some sp →
    sp.year_born = (personAt s pid).year_born + (-10 + ((drawNat r).1 : Int) % 21) ∧
    sp.parents = none ∧
    sp.children = [] ∧
    sp.partner = some pid ∧
    (personAt (create_partner fac s pid false [] r).1 pid).partner =
      some s.all_people.length ∧
    (∀ j, j ≠ pid →
      personAt (create_partner fac s pid false [] r).1 j = personAt s j) ∧
    (fac.gender_probability (get_decade_string sp.year_born) ≠ [] →
      sp.gender ∈ (fac.gender_probability (get_decade_string sp.year_born)).map Prod.fst)) ∧
  (∀ (k : Int) (r' : Draws), -10 ≤ k → k ≤ 10 →
    (personAt s pid).year_born + k ≤ 2120 →
    ∃ sp : Person,
      (create_partner fac s pid false [] ((k + 10).toNat :: r')).2.1 = some sp ∧
      sp.year_born = (personAt s pid).year_born + k)

/-- C6: create_partner draws a uniform offset in [-10, 10], yields no partner
exactly past year 2120 (leaving the state unchanged), and otherwise returns a
parentless, decade-gendered partner symmetrically linked to the person. -/
theorem claim_c6 (fac : Factory) (s : TreeState) (pid : Nat) (r : Draws)
    (hpid : pid < s.all_people.length) : CreatePartnerSpec fac s pid r := by
  have h0 := natCast_emod_nonneg (drawNat r).1 21
  have h21 : ((drawNat r).1 : Int) % 21 < 21 := Int.emod_lt_of_pos _ (by norm_num)
  refine ⟨⟨by omega, by omega⟩, ?_, ?_, ?_, ?_⟩
  · by_cases hy : 2120 < (personAt s pid).year_born + (-10 + ((drawNat r).1 : Int) % 21)
    · simp only [create_partner, randint, drawNat]
      simp only [create_partner, randint] at hy ⊢
      rw [if_pos (by simpa [randint] using hy)]
      simpa using hy
    · simp only [create_partner, randint]
      rw [if_neg (by simpa [randint] using hy)]
      simpa using hy
  · intro hy
    simp only [create_partner, randint]
    rw [if_pos (by simpa [randint] using hy)]
  · intro sp hsp
    by_cases hy : 2120 < (personAt s pid).year_born + (-10 + ((drawNat r).1 : Int) % 21)
    · simp only [create_partner, randint] at hsp
      rw [if_pos (by simpa [randint] using hy)] at hsp
      simp at hsp
    · simp only [create_partner, randint] at hsp ⊢
      rw [if_neg (by simpa [randint] using hy)] at hsp
      simp only [Option.some.injEq] at hsp
      subst hsp
      refine ⟨rfl, rfl, rfl, rfl, ?_, ?_, ?_⟩
      · rw [if_neg (by simpa [randint] using hy)]
        simp only [TreeState.mk.injEq]
        rw [personAt_modifyPerson_eq s pid _ hpid]
      · intro j hj
        rw [if_neg (by simpa [randint] using hy)]
        exact personAt_modifyPerson_ne s pid j _ hj
      · intro hne
        exact pickWeighted_mem _ _ hne
  · intro k r' hk1 hk2 hk3
    have hh : randint (-10) 10 ((k + 10).toNat :: r') = (k, r') := by
      have : (k + 10).toNat = (k - (-10)).toNat := by omega
      rw [this]
      exact randint_hit (-10) 10 k r' (by omega) (by omega)
    simp only [create_partner]
    rw [hh]
    rw [if_neg (by omega)]
    exact ⟨_, rfl, rfl⟩

/-- Singleton state used by the create_partner witness. -/
def treeW : TreeState :=
  { all_people := [⟨2000, 2070, "Ada", "Lovelace", "female", none, [], none⟩],
    people_by_birth_decade := [("2000s", [0])] }

/-- Closed witness for C6 at the concrete factory fac1 and a one-person state. -/
theorem claim_c6_witness : CreatePartnerSpec fac1 treeW 0 [] :=
  claim_c6 fac1 treeW 0 [] (by decide)

/-! Infrastructure for loop invariants: during generation an existing person's
record can change only in its children list (and a brand-new person's partner
slot is set before anyone can observe it), so we track a "kept below n"
relation between states. -/

/-- All fields except the children list agree. -/
def persEq (p p' : Person) : Prop :=
  p'.year_born = p.year_born ∧ p'.year_died = p.year_died ∧
  p'.first_name = p.first_name ∧ p'.last_name = p.last_name ∧
  p'.gender = p.gender ∧ p'.partner = p.partner ∧ p'.parents = p.parents

theorem persEq_refl (p : Person) : persEq p p :=
  ⟨rfl, rfl, rfl, rfl, rfl, rfl, rfl⟩

theorem persEq_trans {p q t : Person} (h1 : persEq p q) (h2 : persEq q t) :
    persEq p t := by
  obtain ⟨a1, a2, a3, a4, a5, a6, a7⟩ := h1
  obtain ⟨b1, b2, b3, b4, b5, b6, b7⟩ := h2
  exact ⟨b1.trans a1, b2.trans a2, b3.trans a3, b4.trans a4, b5.trans a5,
    b6.trans a6, b7.trans a7⟩

/-- Every person of index below n is unchanged (up to its children list). -/
def keptBelow (n : Nat) (s s' : TreeState) : Prop :=
  ∀ i < n, persEq (personAt s i) (personAt s' i)

theorem keptBelow_refl (n : Nat) (s : TreeState) : keptBelow n s s :=
  fun _ _ => persEq_refl _

theorem keptBelow_trans {n : Nat} {s s1 s2 : TreeState} (h1 : keptBelow n s s1)
    (h2 : keptBelow n s1 s2) : keptBelow n s s2 :=
  fun i hi => persEq_trans (h1 i hi) (h2 i hi)

theorem keptBelow_addPerson (n : Nat) (s : TreeState) (p : Person)
    (h : n ≤ s.all_people.length) : keptBelow n s (addPerson s p) := by
  intro i hi
  rw [personAt_addPerson_lt s p i (by omega)]
  exact persEq_refl _

theorem keptBelow_modify (n : Nat) (s : TreeState) (j : Nat) (f : Person → Person)
    (hf : ∀ p, persEq p (f p)) : keptBelow n s (modifyPerson s j f) := by
  intro i hi
  by_cases hij : i = j
  · subst hij
    by_cases hr : i < s.all_people.length
    · rw [personAt_modifyPerson_eq s i f hr]
      exact hf _
    · have : modifyPerson s i f = s := by
        simp only [modifyPerson, updateAt_out f i s.all_people (by omega)]
      rw [this]
      exact persEq_refl _
  · rw [personAt_modifyPerson_ne s j i f hij]
    exact persEq_refl _

theorem keptBelow_modify_ge (n : Nat) (s : TreeState) (j : Nat) (f : Person → Person)
    (h : n ≤ j) : keptBelow n s (modifyPerson s j f) := by
  intro i hi
  rw [personAt_modifyPerson_ne s j i f (by omega)]
  exact persEq_refl _

/-- Appending a child to someone's list keeps every other field. -/
theorem persEq_addChild (c : Nat) (p : Person) :
    persEq p { p with children := p.children ++ [c] } :=
  ⟨rfl, rfl, rfl, rfl, rfl, rfl, rfl⟩

/-- The generic foldl preservation principle used for the child loop. -/
theorem foldl_preserve {α β : Type} (P : β → Prop) (f : β → α → β) (l : List α)
    (b : β) (h : ∀ x ∈ l, ∀ b', P b' → P (f b' x)) (hb : P b) :
    P (l.foldl f b) := by
  induction l generalizing b with
  | nil => exact hb
  | cons a l ih =>
    exact ih (f b a) (fun x hx b' => h x (List.mem_cons_of_mem a hx) b')
      (h a (List.mem_cons_self a l) b hb)

/-- Field-level description of a freshly created person: fixed birth year and
gender, no links, the given parents, a death year offset by a draw in
[-10, 10] from the truncated life expectancy, and a surname from the founder
pool (descendant) or the decade table (otherwise). -/
theorem create_person_facts (fac : Factory) (y : Int) (g : String) (d : Bool)
    (o : List String) (par : Option (Nat × Option Nat)) (r : Draws) :
    (create_person fac y g d o par r).1.year_born = y ∧
    (create_person fac y g d o par r).1.gender = g ∧
    (create_person fac y g d o par r).1.partner = none ∧
    (create_person fac y g d o par r).1.children = [] ∧
    (create_person fac y g d o par r).1.parents = par ∧
    (∃ off : Int, -10 ≤ off ∧ off ≤ 10 ∧
      (create_person fac y g d o par r).1.year_died =
        y + (ratTrunc (fac.life_expectancy y) + off)) ∧
    (d = true → o ≠ [] → (create_person fac y g d o par r).1.last_name ∈ o) ∧
    (d = false → fac.last_names_with_frequencies (get_decade_string y) ≠ [] →
      (create_person fac y g d o par r).1.last_name ∈
        (fac.last_names_with_frequencies (get_decade_string y)).map Prod.fst) := by
  refine ⟨rfl, rfl, rfl, rfl, rfl, ?_, ?_, ?_⟩
  · have hb := randint_mem (-10) 10 r (by norm_num)
    exact ⟨(randint (-10) 10 r).1, hb.1, hb.2, rfl⟩
  · intro hd ho
    subst hd
    simp only [create_person, get_last_name, if_pos rfl]
    exact randChoice_mem o _ ho
  · intro hd hne
    subst hd
    simp only [create_person, get_last_name, Bool.false_eq_true, if_false]
    exact pickWeighted_mem _ _ hne

/-- addChildLinks keeps the population length. -/
theorem addChildLinks_length (s : TreeState) (pid : Nat) (po : Option Nat)
    (cid : Nat) : (addChildLinks s pid po cid).all_people.length =
      s.all_people.length := by
  cases po <;> simp [addChildLinks, modifyPerson_length]

/-- addChildLinks keeps the decade buckets. -/
theorem addChildLinks_decades (s : TreeState) (pid : Nat) (po : Option Nat)
    (cid : Nat) : (addChildLinks s pid po cid).people_by_birth_decade =
      s.people_by_birth_decade := by
  cases po <;> rfl

/-- addChildLinks only touches children lists: every person is persEq. -/
theorem addChildLinks_persEq (s : TreeState) (pid : Nat) (po : Option Nat)
    (cid : Nat) (i : Nat) :
    persEq (personAt s i) (personAt (addChildLinks s pid po cid) i) := by
  cases po with
  | none =>
    exact keptBelow_modify (i + 1) s pid _ (fun p => persEq_addChild cid p) i (by omega)
  | some pj =>
    refine persEq_trans
      (keptBelow_modify (i + 1) s pid _ (fun p => persEq_addChild cid p) i (by omega)) ?_
    exact keptBelow_modify (i + 1) _ pj _ (fun p => persEq_addChild cid p) i (by omega)


/-- Shape of create_partner: either it returns none with the state untouched,
or it returns a record that points back at the person, is parentless and
childless, was born within ten years of the person and not after 2120, has an
offset death year and (for the non-descendant call) a table surname, while
the person's partner slot is set to the index the record will receive. -/
theorem create_partner_shape (fac : Factory) (s : TreeState) (pid : Nat)
    (d : Bool) (o : List String) (r : Draws) :
    ((create_partner fac s pid d o r).2.1 = none ∧
      (create_partner fac s pid d o r).1 = s) ∨
    (∃ sp : Person, (create_partner fac s pid d o r).2.1 = some sp ∧
      (create_partner fac s pid d o r).1 =
        modifyPerson s pid (fun p => { p with partner := some s.all_people.length }) ∧
      sp.partner = some pid ∧ sp.parents = none ∧ sp.children = [] ∧
      (personAt s pid).year_born - 10 ≤ sp.year_born ∧
      sp.year_born ≤ (personAt s pid).year_born + 10 ∧
      sp.year_born ≤ 2120 ∧
      (∃ off2 : Int, -10 ≤ off2 ∧ off2 ≤ 10 ∧
        sp.year_died = sp.year_born + (ratTrunc (fac.life_expectancy sp.year_born) + off2)) ∧
      (d = false → fac.last_names_with_frequencies (get_decade_string sp.year_born) ≠ [] →
        sp.last_name ∈
          (fac.last_names_with_frequencies (get_decade_string sp.year_born)).map Prod.fst)) := by
  have hoff := randint_mem (-10) 10 r (by norm_num)
  by_cases hz : (personAt s pid).year_born + (randint (-10) 10 r).1 > 2120
  · left
    simp only [create_partner, if_pos hz]
    exact ⟨trivial, trivial⟩
  · right
    simp only [create_partner, if_neg hz]
    obtain ⟨h1, _, _, h4, h5, hdied, _, hln2⟩ := create_person_facts fac
      ((personAt s pid).year_born + (randint (-10) 10 r).1)
      (assign_gender fac ((personAt s pid).year_born + (randint (-10) 10 r).1)
        (randint (-10) 10 r).2).1 d o none
      (assign_gender fac ((personAt s pid).year_born + (randint (-10) 10 r).1)
        (randint (-10) 10 r).2).2
    refine ⟨_, rfl, trivial, rfl, h5, h4, ?_, ?_, ?_, ?_, ?_⟩
    · show (personAt s pid).year_born - 10 ≤
        (create_person fac ((personAt s pid).year_born + (randint (-10) 10 r).1)
          (assign_gender fac ((personAt s pid).year_born + (randint (-10) 10 r).1)
            (randint (-10) 10 r).2).1 d o none
          (assign_gender fac ((personAt s pid).year_born + (randint (-10) 10 r).1)
            (randint (-10) 10 r).2).2).1.year_born
      rw [h1]; omega
    · show (create_person fac ((personAt s pid).year_born + (randint (-10) 10 r).1)
          (assign_gender fac ((personAt s pid).year_born + (randint (-10) 10 r).1)
            (randint (-10) 10 r).2).1 d o none
          (assign_gender fac ((personAt s pid).year_born + (randint (-10) 10 r).1)
            (randint (-10) 10 r).2).2).1.year_born ≤ (personAt s pid).year_born + 10
      rw [h1]; omega
    · show (create_person fac ((personAt s pid).year_born + (randint (-10) 10 r).1)
          (assign_gender fac ((personAt s pid).year_born + (randint (-10) 10 r).1)
            (randint (-10) 10 r).2).1 d o none
          (assign_gender fac ((personAt s pid).year_born + (randint (-10) 10 r).1)
            (randint (-10) 10 r).2).2).1.year_born ≤ 2120
      rw [h1]; omega
    · exact hdied
    · intro hd hne
      exact hln2 hd hne

/-- Shape of the spouse step: either the state comes back untouched, or one
new person was appended at the old length — the child's partner — pointing
back at the child, parentless and childless, born within ten years of the
child and not after 2120, with an offset death year and a table surname, and
registered in the decade buckets; every other person is untouched. -/
theorem insertChildPartner_shape (fac : Factory) (s : TreeState) (cid : Nat)
    (r : Draws) (hcid : cid < s.all_people.length) :
    ((insertChildPartner fac s cid r).1 = s) ∨
    ((insertChildPartner fac s cid r).1.all_people.length = s.all_people.length + 1 ∧
     (∀ i < s.all_people.length, i ≠ cid →
        personAt (insertChildPartner fac s cid r).1 i = personAt s i) ∧
     personAt (insertChildPartner fac s cid r).1 cid =
       { personAt s cid with partner := some s.all_people.length } ∧
     (∃ sp : Person,
       personAt (insertChildPartner fac s cid r).1 s.all_people.length = sp ∧
       sp.partner = some cid ∧ sp.parents = none ∧ sp.children = [] ∧
       (personAt s cid).year_born - 10 ≤ sp.year_born ∧
       sp.year_born ≤ (personAt s cid).year_born + 10 ∧
       sp.year_born ≤ 2120 ∧
       (∃ off2 : Int, -10 ≤ off2 ∧ off2 ≤ 10 ∧
         sp.year_died = sp.year_born + (ratTrunc (fac.life_expectancy sp.year_born) + off2)) ∧
       (fac.last_names_with_frequencies (get_decade_string sp.year_born) ≠ [] →
         sp.last_name ∈
           (fac.last_names_with_frequencies (get_decade_string sp.year_born)).map Prod.fst) ∧
       (insertChildPartner fac s cid r).1.people_by_birth_decade =
         addToDecade s.people_by_birth_decade (get_decade_string sp.year_born)
           s.all_people.length)) := by
  rcases create_partner_shape fac s cid false [] r with ⟨hn, hs⟩ |
    ⟨sp, hsome, hstate, hback, hpar, hch, hy1, hy2, hy3, hdied, hln⟩
  · left
    simp only [insertChildPartner, hn, hs]
  · right
    have hmlen : (modifyPerson s cid
        (fun p => { p with partner := some s.all_people.length })).all_people.length =
        s.all_people.length := modifyPerson_length s cid _
    have hout : (insertChildPartner fac s cid r).1 =
        addPerson (modifyPerson s cid
          (fun p => { p with partner := some s.all_people.length })) sp := by
      simp only [insertChildPartner, hsome, hstate]
    have hspat : personAt (insertChildPartner fac s cid r).1 s.all_people.length = sp := by
      rw [hout]
      have := personAt_addPerson_eq (modifyPerson s cid
        (fun p => { p with partner := some s.all_people.length })) sp
      rwa [hmlen] at this
    refine ⟨?_, ?_, ?_, sp, hspat, hback, hpar, hch, hy1, hy2, hy3, hdied, hln rfl, ?_⟩
    · rw [hout, addPerson_length, hmlen]
    · intro i hi hne
      rw [hout, personAt_addPerson_lt _ _ i (by omega)]
      exact personAt_modifyPerson_ne s cid i _ hne
    · rw [hout, personAt_addPerson_lt _ _ cid (by omega)]
      exact personAt_modifyPerson_eq s cid _ hcid
    · rw [hout]
      simp only [addPerson, modifyPerson_decades, hmlen]

/-- Shape of one pass of the child loop: either the birth year is past 2120
and nothing at all happens, or the child is appended at the old length (and
enqueued — alone), carrying birth year, parent pair, founder surname and an
offset death year, and either no spouse appears or exactly one spouse is
appended right after the child with the two partner references linked. -/
theorem processChild_shape (fac : Factory) (originals : List String) (pid : Nat)
    (partnerOpt : Option Nat) (s : TreeState) (q : List Nat) (r : Draws) (y : Int)
    (res : TreeState × List Nat × Draws)
    (hres : processChild fac originals pid partnerOpt (s, q, r) y = res) :
    (2120 < y ∧ res = (s, q, r)) ∨
    (¬2120 < y ∧
      res.2.1 = q ++ [s.all_people.length] ∧
      res.1.all_people.length ≤ s.all_people.length + 2 ∧
      keptBelow s.all_people.length s res.1 ∧
      (personAt res.1 s.all_people.length).year_born = y ∧
      (personAt res.1 s.all_people.length).parents = some (pid, partnerOpt) ∧
      (originals ≠ [] → (personAt res.1 s.all_people.length).last_name ∈ originals) ∧
      (∃ off : Int, -10 ≤ off ∧ off ≤ 10 ∧
        (personAt res.1 s.all_people.length).year_died =
          y + (ratTrunc (fac.life_expectancy y) + off)) ∧
      ((res.1.all_people.length = s.all_people.length + 1 ∧
        (personAt res.1 s.all_people.length).partner = none ∧
        res.1.people_by_birth_decade =
          addToDecade s.people_by_birth_decade (get_decade_string y)
            s.all_people.length) ∨
       (res.1.all_people.length = s.all_people.length + 2 ∧
        (personAt res.1 s.all_people.length).partner = some (s.all_people.length + 1) ∧
        (∃ sp : Person, personAt res.1 (s.all_people.length + 1) = sp ∧
          sp.partner = some s.all_people.length ∧ sp.parents = none ∧
          sp.children = [] ∧
          y - 10 ≤ sp.year_born ∧ sp.year_born ≤ y + 10 ∧ sp.year_born ≤ 2120 ∧
          (∃ off2 : Int, -10 ≤ off2 ∧ off2 ≤ 10 ∧
            sp.year_died = sp.year_born +
              (ratTrunc (fac.life_expectancy sp.year_born) + off2)) ∧
          (fac.last_names_with_frequencies (get_decade_string sp.year_born) ≠ [] →
            sp.last_name ∈
              (fac.last_names_with_frequencies
                (get_decade_string sp.year_born)).map Prod.fst) ∧
          res.1.people_by_birth_decade =
            addToDecade (addToDecade s.people_by_birth_decade (get_decade_string y)
              s.all_people.length) (get_decade_string sp.year_born)
              (s.all_people.length + 1))))) := by
  subst hres
  by_cases hy : y > 2120
  · left
    refine ⟨hy, ?_⟩
    simp only [processChild, if_pos hy]
  · right
    refine ⟨hy, ?_⟩
    simp only [processChild, if_neg hy]
    set c := create_person fac y (assign_gender fac y r).1 true originals
      (some (pid, partnerOpt)) (assign_gender fac y r).2 with hc
    set s2 := addChildLinks s pid partnerOpt s.all_people.length with hs2
    set s3 := addPerson s2 c.1 with hs3
    set w := should_have_partner fac y c.2 with hw
    obtain ⟨hcy, _, hcpartner, _, hcparents, hcdied, hcln, _⟩ :=
      create_person_facts fac y (assign_gender fac y r).1 true originals
        (some (pid, partnerOpt)) (assign_gender fac y r).2
    rw [← hc] at hcy hcpartner hcparents hcdied hcln
    have hlen2 : s2.all_people.length = s.all_people.length :=
      addChildLinks_length s pid partnerOpt s.all_people.length
    have hlen3 : s3.all_people.length = s.all_people.length + 1 := by
      rw [hs3, addPerson_length, hlen2]
    have hchild3 : personAt s3 s.all_people.length = c.1 := by
      rw [hs3]
      have := personAt_addPerson_eq s2 c.1
      rwa [hlen2] at this
    have hkept3 : keptBelow s.all_people.length s s3 := by
      refine keptBelow_trans (fun i _ => addChildLinks_persEq s pid partnerOpt
        s.all_people.length i) ?_
      rw [hs3]
      exact keptBelow_addPerson s.all_people.length s2 c.1 (by omega)
    have hdec3 : s3.people_by_birth_decade =
        addToDecade s.people_by_birth_decade (get_decade_string y)
          s.all_people.length := by
      rw [hs3]
      simp only [addPerson]
      rw [hs2, addChildLinks_decades, addChildLinks_length, hcy]
    cases hwv : w.1 with
    | false =>
      simp only [hwv, Bool.false_eq_true, if_false]
      refine ⟨trivial, by omega, hkept3, by rw [hchild3]; exact hcy,
        by rw [hchild3]; exact hcparents, ?_, ?_, ?_⟩
      · intro ho
        rw [hchild3]
        exact hcln rfl ho
      · rw [hchild3]
        exact hcdied
      · exact Or.inl ⟨hlen3, by rw [hchild3]; exact hcpartner, hdec3⟩
    | true =>
      simp only [hwv, if_true]
      rcases insertChildPartner_shape fac s3 s.all_people.length w.2 (by omega) with
        hip | ⟨hiplen, hipne, hipcid, sp, hspat, hsp1, hsp2, hsp3, hsp4, hsp5, hsp6,
          hspdied, hspln, hipdec⟩
      · rw [hip]
        refine ⟨trivial, by omega, hkept3, by rw [hchild3]; exact hcy,
          by rw [hchild3]; exact hcparents, ?_, ?_, ?_⟩
        · intro ho
          rw [hchild3]
          exact hcln rfl ho
        · rw [hchild3]
          exact hcdied
        · exact Or.inl ⟨hlen3, by rw [hchild3]; exact hcpartner, hdec3⟩
      · have hcidp : personAt (insertChildPartner fac s3 s.all_people.length w.2).1
            s.all_people.length =
            { c.1 with partner := some (s.all_people.length + 1) } := by
          rw [hipcid, hchild3, hlen3]
        refine ⟨trivial, by omega, ?_, ?_, ?_, ?_, ?_, ?_⟩
        · refine keptBelow_trans hkept3 (fun i hi => ?_)
          rw [hipne i (by omega) (by omega)]
          exact persEq_refl _
        · rw [hcidp]
          exact hcy
        · rw [hcidp]
          exact hcparents
        · intro ho
          rw [hcidp]
          exact hcln rfl ho
        · rw [hcidp]
          exact hcdied
        · refine Or.inr ⟨by omega, by rw [hcidp], sp, ?_, hsp1, hsp2, hsp3, ?_, ?_,
            hsp6, hspdied, hspln, ?_⟩
          · rw [← hlen3]
            exact hspat
          · rw [hchild3, hcy] at hsp4
            omega
          · rw [hchild3, hcy] at hsp5
            omega
          · rw [hipdec, hdec3, hlen3]

/-- An integer below a rational is below its truncation toward zero. -/
theorem le_ratTrunc (z : Int) (q : ℚ) (h : (z : ℚ) ≤ q) : z ≤ ratTrunc q := by
  unfold ratTrunc
  split
  · exact Int.le_floor.mpr h
  · calc z = ⌈(z : ℚ)⌉ := (Int.ceil_intCast z).symm
      _ ≤ ⌈q⌉ := Int.ceil_le_ceil h

/-- Every distributed birth year is at least 25 past the parent year. -/
theorem distribute_ge (py n : Int) (r : Draws) :
    ∀ y ∈ (distribute_birth_years py n r).1, py + 25 ≤ y := by
  intro y hy
  by_cases h0 : n = 0
  · simp [distribute_birth_years, h0] at hy
  by_cases h1 : n = 1
  · subst h1
    have hone : (distribute_birth_years py 1 r).1 =
        [(randint (py + 25) (py + 45) r).1] := by
      simp [distribute_birth_years]
    rw [hone, List.mem_singleton] at hy
    subst hy
    exact (randint_mem (py + 25) (py + 45) r (by omega)).1
  · simp only [distribute_birth_years, if_neg h0, if_neg h1, List.mem_map] at hy
    obtain ⟨i, hirange, hi⟩ := hy
    have hn2 : 2 ≤ n := by
      rcases Int.lt_or_lt_of_ne h0 with hneg | hpos
      · exfalso
        have : n.toNat = 0 := by omega
        rw [this] at hirange
        simp at hirange
      · omega
    subst hi
    apply le_ratTrunc
    have hstep : (0 : ℚ) ≤ ((py + 45 - (py + 25) : Int) : ℚ) / ((n - 1 : Int) : ℚ) := by
      apply div_nonneg
      · push_cast; linarith
      · push_cast
        have : (2 : ℚ) ≤ (n : ℚ) := by exact_mod_cast hn2
        linarith
    have hterm : (0 : ℚ) ≤ (i : ℚ) * (((py + 45 - (py + 25) : Int) : ℚ) / ((n - 1 : Int) : ℚ)) :=
      mul_nonneg (Nat.cast_nonneg i) hstep
    push_cast at hterm ⊢
    linarith

/-- Partner references are valid, symmetric, and join people born within ten
years of each other. -/
def PartnerInv (s : TreeState) : Prop :=
  ∀ i, i < s.all_people.length → ∀ j, (personAt s i).partner = some j →
    j < s.all_people.length ∧ (personAt s j).partner = some i ∧
    (personAt s i).year_born - 10 ≤ (personAt s j).year_born ∧
    (personAt s j).year_born ≤ (personAt s i).year_born + 10

/-- Recorded parent pairs are valid and respect the generation gaps the code
actually guarantees: at least 25 years after the elder parent (hence after a
single parent), and at least 15 years after each parent. -/
def ChildGapAmended (s : TreeState) : Prop :=
  ∀ i, i < s.all_people.length → ∀ a ob, (personAt s i).parents = some (a, ob) →
    a < s.all_people.length ∧
    (∀ b, ob = some b → b < s.all_people.length ∧
      min (personAt s a).year_born (personAt s b).year_born + 25 ≤
        (personAt s i).year_born ∧
      (personAt s a).year_born + 15 ≤ (personAt s i).year_born ∧
      (personAt s b).year_born + 15 ≤ (personAt s i).year_born) ∧
    (ob = none → (personAt s a).year_born + 25 ≤ (personAt s i).year_born)

/-- The loop invariant of generate_tree: the tree invariants hold, queued
indices are valid, and the queue holds only the first founder and children
(never a married-in spouse). -/
def GenInv (g : GenState) : Prop :=
  PartnerInv g.tree ∧ ChildGapAmended g.tree ∧
  (∀ id ∈ g.queue, id < g.tree.all_people.length) ∧
  (∀ id ∈ g.queue, id = 0 ∨ (personAt g.tree id).parents ≠ none)

/-- The accumulator invariant carried through the child loop relative to the
state s0 at the start of the queue iteration. -/
def FoldInv (s0 : TreeState) (acc : TreeState × List Nat × Draws) : Prop :=
  PartnerInv acc.1 ∧ ChildGapAmended acc.1 ∧
  s0.all_people.length ≤ acc.1.all_people.length ∧
  keptBelow s0.all_people.length s0 acc.1 ∧
  (∀ id ∈ acc.2.1, id < acc.1.all_people.length) ∧
  (∀ id ∈ acc.2.1, id = 0 ∨ (personAt acc.1 id).parents ≠ none)

/-- One child-loop pass preserves the accumulator invariant, provided the
birth year respects the elder-parent window computed at state s0. -/
theorem processChild_inv (fac : Factory) (originals : List String) (pid : Nat)
    (partnerOpt : Option Nat) (s0 : TreeState) (elder : Int)
    (hpid : pid < s0.all_people.length)
    (helder : (∀ pj, partnerOpt = some pj → pj < s0.all_people.length ∧
        elder = min (personAt s0 pid).year_born (personAt s0 pj).year_born ∧
        (personAt s0 pid).year_born - 10 ≤ (personAt s0 pj).year_born ∧
        (personAt s0 pj).year_born ≤ (personAt s0 pid).year_born + 10) ∧
      (partnerOpt = none → elder = (personAt s0 pid).year_born))
    (y : Int) (hy : elder + 25 ≤ y)
    (acc : TreeState × List Nat × Draws) (hP : FoldInv s0 acc) :
    FoldInv s0 (processChild fac originals pid partnerOpt acc y) := by
  obtain ⟨s, q, r⟩ := acc
  obtain ⟨hpar, hgap, hlen0, hkept0, hqlen, hqpar⟩ := hP
  dsimp only at hpar hgap hlen0 hkept0 hqlen hqpar
  rcases processChild_shape fac originals pid partnerOpt s q r y _ rfl with
    ⟨_, heq⟩ | ⟨_, hqeq, hbound, hkept, hcy, hcpar, _, _, hsplit⟩
  · rw [heq]
    exact ⟨hpar, hgap, hlen0, hkept0, hqlen, hqpar⟩
  set res := processChild fac originals pid partnerOpt (s, q, r) y with hres
  have hplen : pid < s.all_people.length := by
    have := (hkept0 pid hpid)
    omega
  -- years of pid (and of a partner) in s agree with those in s0
  have hpy : (personAt s pid).year_born = (personAt s0 pid).year_born :=
    (hkept0 pid hpid).1
  have hlen' : s.all_people.length < res.1.all_people.length := by
    rcases hsplit with ⟨h, _⟩ | ⟨h, _⟩ <;> omega
  -- transported elder facts
  have hychild : ∀ a' ob', some (pid, partnerOpt) = some (a', ob') →
      a' < res.1.all_people.length ∧
      (∀ b, ob' = some b → b < res.1.all_people.length ∧
        min (personAt res.1 a').year_born (personAt res.1 b).year_born + 25 ≤ y ∧
        (personAt res.1 a').year_born + 15 ≤ y ∧
        (personAt res.1 b).year_born + 15 ≤ y) ∧
      (ob' = none → (personAt res.1 a').year_born + 25 ≤ y) := by
    intro a' ob' hinj
    injection hinj with hinj
    injection hinj with ha hob
    subst ha
    subst hob
    have hpyres : (personAt res.1 pid).year_born = (personAt s0 pid).year_born := by
      rw [(hkept pid hplen).1, hpy]
    refine ⟨by omega, ?_, ?_⟩
    · intro b hb
      obtain ⟨hjlen, helde, hd1, hd2⟩ := helder.1 b hb
      have hby : (personAt res.1 b).year_born = (personAt s0 b).year_born := by
        have hbs : (personAt s b).year_born = (personAt s0 b).year_born :=
          (hkept0 b hjlen).1
        have hblen : b < s.all_people.length := by omega
        rw [(hkept b hblen).1, hbs]
      refine ⟨by omega, ?_, ?_, ?_⟩
      · rw [hpyres, hby, ← helde]; omega
      · rw [hpyres]
        have : elder ≤ (personAt s0 pid).year_born - 10 + 10 := by
          rw [helde]; omega
        omega
      · rw [hby]
        have : elder ≥ (personAt s0 b).year_born - 10 := by
          rw [helde]; omega
        omega
    · intro hnone
      subst hnone
      rw [hpyres, ← helder.2 rfl]
      omega
  refine ⟨?_, ?_, by omega, ?_, ?_, ?_⟩
  · -- PartnerInv
    intro i hi j hj
    rcases hsplit with ⟨hL, hPnone, _⟩ | ⟨hL, hPsome, sp, hsp, hb1, _, _, hy1, hy2, _, _, _, _⟩
    · -- no spouse: indices < n are old, index n has no partner
      by_cases hiold : i < s.all_people.length
      · have hei := hkept i hiold
        rw [hei.2.2.2.2.2.1] at hj
        obtain ⟨hjl, hjb, hd1, hd2⟩ := hpar i hiold j hj
        have hej := hkept j hjl
        refine ⟨by omega, by rw [hej.2.2.2.2.2.1]; exact hjb, ?_, ?_⟩
        · rw [hei.1, hej.1]; exact hd1
        · rw [hei.1, hej.1]; exact hd2
      · have : i = s.all_people.length := by omega
        subst this
        rw [hPnone] at hj
        exact absurd hj (by simp)
    · -- spouse: the pair (n, n+1) is linked, everyone else is old
      by_cases hiold : i < s.all_people.length
      · have hei := hkept i hiold
        rw [hei.2.2.2.2.2.1] at hj
        obtain ⟨hjl, hjb, hd1, hd2⟩ := hpar i hiold j hj
        have hej := hkept j hjl
        refine ⟨by omega, by rw [hej.2.2.2.2.2.1]; exact hjb, ?_, ?_⟩
        · rw [hei.1, hej.1]; exact hd1
        · rw [hei.1, hej.1]; exact hd2
      · by_cases hic : i = s.all_people.length
        · subst hic
          rw [hPsome] at hj
          have hjv : j = s.all_people.length + 1 := by
            injection hj with h; omega
          subst hjv
          rw [hsp]
          refine ⟨by omega, hb1, ?_, ?_⟩
          · rw [hcy]; omega
          · rw [hcy]; omega
        · have : i = s.all_people.length + 1 := by omega
          subst this
          rw [hsp] at hj
          rw [hb1] at hj
          have hjv : j = s.all_people.length := by
            injection hj with h; omega
          subst hjv
          rw [hsp]
          refine ⟨by omega, hPsome, ?_, ?_⟩
          · rw [hcy]; omega
          · rw [hcy]; omega
  · -- ChildGapAmended
    intro i hi a ob hpcs
    rcases hsplit with ⟨hL, hPnone, _⟩ | ⟨hL, hPsome, sp, hsp, _, hsppar, _, _, _, _, _, _, _⟩
    · by_cases hiold : i < s.all_people.length
      · have hei := hkept i hiold
        rw [hei.2.2.2.2.2.2] at hpcs
        obtain ⟨hal, hsome, hnone⟩ := hgap i hiold a ob hpcs
        have hea := hkept a hal
        refine ⟨by omega, ?_, ?_⟩
        · intro b hb
          obtain ⟨hbl, hm, h15a, h15b⟩ := hsome b hb
          have heb := hkept b hbl
          refine ⟨by omega, ?_, ?_, ?_⟩
          · rw [hei.1, hea.1, heb.1]; exact hm
          · rw [hei.1, hea.1]; exact h15a
          · rw [hei.1, heb.1]; exact h15b
        · intro hn
          rw [hei.1, hea.1]
          exact hnone hn
      · have : i = s.all_people.length := by omega
        subst this
        rw [hcpar] at hpcs
        have hych := hychild a ob hpcs
        obtain ⟨hal, hsome, hnone⟩ := hych
        refine ⟨by omega, ?_, ?_⟩
        · intro b hb
          obtain ⟨hbl, hm, h15a, h15b⟩ := hsome b hb
          exact ⟨hbl, by rw [hcy]; exact hm, by rw [hcy]; exact h15a,
            by rw [hcy]; exact h15b⟩
        · intro hn
          rw [hcy]
          exact hnone hn
    · by_cases hiold : i < s.all_people.length
      · have hei := hkept i hiold
        rw [hei.2.2.2.2.2.2] at hpcs
        obtain ⟨hal, hsome, hnone⟩ := hgap i hiold a ob hpcs
        have hea := hkept a hal
        refine ⟨by omega, ?_, ?_⟩
        · intro b hb
          obtain ⟨hbl, hm, h15a, h15b⟩ := hsome b hb
          have heb := hkept b hbl
          refine ⟨by omega, ?_, ?_, ?_⟩
          · rw [hei.1, hea.1, heb.1]; exact hm
          · rw [hei.1, hea.1]; exact h15a
          · rw [hei.1, heb.1]; exact h15b
        · intro hn
          rw [hei.1, hea.1]
          exact hnone hn
      · by_cases hic : i = s.all_people.length
        · subst hic
          rw [hcpar] at hpcs
          obtain ⟨hal, hsome, hnone⟩ := hychild a ob hpcs
          refine ⟨by omega, ?_, ?_⟩
          · intro b hb
            obtain ⟨hbl, hm, h15a, h15b⟩ := hsome b hb
            exact ⟨hbl, by rw [hcy]; exact hm, by rw [hcy]; exact h15a,
              by rw [hcy]; exact h15b⟩
          · intro hn
            rw [hcy]
            exact hnone hn
        · have : i = s.all_people.length + 1 := by omega
          subst this
          rw [hsp, hsppar] at hpcs
          exact absurd hpcs (by simp)
  · -- keptBelow from s0
    refine keptBelow_trans hkept0 (fun i hi => hkept i (by omega))
  · -- queued indices valid
    rw [hqeq]
    intro id hid
    rcases List.mem_append.mp hid with hold | hnew
    · have := hqlen id hold
      omega
    · have : id = s.all_people.length := by simpa using hnew
      omega
  · -- queue holds only the founder or children
    rw [hqeq]
    intro id hid
    rcases List.mem_append.mp hid with hold | hnew
    · rcases hqpar id hold with h0 | hpar'
      · exact Or.inl h0
      · refine Or.inr ?_
        have := (hkept id (hqlen id hold)).2.2.2.2.2.2
        rw [this]
        exact hpar'
    · have : id = s.all_people.length := by simpa using hnew
      subst this
      exact Or.inr (by rw [hcpar]; simp)

/-- One loop iteration preserves the generation invariant, never shrinks the
population, and never alters an existing person outside its children list. -/
theorem stepOnce_inv (fac : Factory) (originals : List String) (g : GenState)
    (h : GenInv g) : GenInv (stepOnce fac originals g) ∧
      g.tree.all_people.length ≤ (stepOnce fac originals g).tree.all_people.length ∧
      keptBelow g.tree.all_people.length g.tree (stepOnce fac originals g).tree := by
  obtain ⟨hpar, hgap, hqlen, hqpar⟩ := h
  rcases hq : g.queue with _ | ⟨pid, rest⟩
  · simp only [stepOnce, hq]
    exact ⟨⟨hpar, hgap, hqlen, hqpar⟩, le_refl _, keptBelow_refl _ _⟩
  have hqlen' : ∀ id ∈ pid :: rest, id < g.tree.all_people.length := by
    rw [← hq]; exact hqlen
  have hqpar' : ∀ id ∈ pid :: rest, id = 0 ∨ (personAt g.tree id).parents ≠ none := by
    rw [← hq]; exact hqpar
  have hrest1 : ∀ id ∈ rest, id < g.tree.all_people.length :=
    fun id hid => hqlen' id (List.mem_cons_of_mem _ hid)
  have hrest2 : ∀ id ∈ rest, id = 0 ∨ (personAt g.tree id).parents ≠ none :=
    fun id hid => hqpar' id (List.mem_cons_of_mem _ hid)
  have hpid : pid < g.tree.all_people.length := hqlen' pid (List.mem_cons_self _ _)
  simp only [stepOnce, hq]
  by_cases hproc : g.processed.contains pid
  · rw [if_pos hproc]
    exact ⟨⟨hpar, hgap, hrest1, hrest2⟩, le_refl _, keptBelow_refl _ _⟩
  rw [if_neg hproc]
  by_cases hn0 : (calculate_num_children fac (personAt g.tree pid).year_born
      (personAt g.tree pid).partner.isSome g.rand).1 = 0
  · rw [if_pos hn0]
    exact ⟨⟨hpar, hgap, hrest1, hrest2⟩, le_refl _, keptBelow_refl _ _⟩
  rw [if_neg hn0]
  -- the child loop
  have helder : (∀ pj, (personAt g.tree pid).partner = some pj →
      pj < g.tree.all_people.length ∧
      (match (personAt g.tree pid).partner with
        | some pj' => min (personAt g.tree pid).year_born (personAt g.tree pj').year_born
        | none => (personAt g.tree pid).year_born) =
        min (personAt g.tree pid).year_born (personAt g.tree pj).year_born ∧
      (personAt g.tree pid).year_born - 10 ≤ (personAt g.tree pj).year_born ∧
      (personAt g.tree pj).year_born ≤ (personAt g.tree pid).year_born + 10) ∧
      ((personAt g.tree pid).partner = none →
        (match (personAt g.tree pid).partner with
          | some pj' => min (personAt g.tree pid).year_born (personAt g.tree pj').year_born
          | none => (personAt g.tree pid).year_born) =
          (personAt g.tree pid).year_born) := by
    constructor
    · intro pj hpj
      obtain ⟨h1, _, h3, h4⟩ := hpar pid hpid pj hpj
      rw [hpj]
      exact ⟨h1, rfl, h3, h4⟩
    · intro hnone
      rw [hnone]
  have hfold := foldl_preserve (FoldInv g.tree)
    (processChild fac originals pid (personAt g.tree pid).partner)
    (distribute_birth_years
      (match (personAt g.tree pid).partner with
        | some pj => min (personAt g.tree pid).year_born (personAt g.tree pj).year_born
        | none => (personAt g.tree pid).year_born)
      (calculate_num_children fac (personAt g.tree pid).year_born
        (personAt g.tree pid).partner.isSome g.rand).1
      (calculate_num_children fac (personAt g.tree pid).year_born
        (personAt g.tree pid).partner.isSome g.rand).2).1
    (g.tree, rest,
      (distribute_birth_years
        (match (personAt g.tree pid).partner with
          | some pj => min (personAt g.tree pid).year_born (personAt g.tree pj).year_born
          | none => (personAt g.tree pid).year_born)
        (calculate_num_children fac (personAt g.tree pid).year_born
          (personAt g.tree pid).partner.isSome g.rand).1
        (calculate_num_children fac (personAt g.tree pid).year_born
          (personAt g.tree pid).partner.isSome g.rand).2).2)
    (fun yy hyy acc hacc =>
      processChild_inv fac originals pid (personAt g.tree pid).partner g.tree _
        hpid helder yy (distribute_ge _ _ _ yy hyy) acc hacc)
    ⟨hpar, hgap, le_refl _, keptBelow_refl _ _, hrest1, hrest2⟩
  exact ⟨⟨hfold.1, hfold.2.1, hfold.2.2.2.2.1, hfold.2.2.2.2.2⟩,
    hfold.2.2.1, hfold.2.2.2.1⟩

/-- A drained queue makes the loop a fixed point. -/
theorem generateLoop_empty (fac : Factory) (originals : List String) (k : Nat)
    (g : GenState) (h : g.queue = []) : generateLoop fac originals k g = g := by
  cases k with
  | zero => rfl
  | succ k' => simp [generateLoop, h]

/-- Running the loop for a sum of fuels runs it in two stages. -/
theorem generateLoop_add (fac : Factory) (originals : List String) (k n : Nat)
    (g : GenState) : generateLoop fac originals (k + n) g =
      generateLoop fac originals k (generateLoop fac originals n g) := by
  induction n generalizing g with
  | zero => rfl
  | succ m ih =>
    by_cases hq : g.queue = []
    · rw [generateLoop_empty fac originals (m + 1) g hq,
        generateLoop_empty fac originals (k + (m + 1)) g hq,
        generateLoop_empty fac originals k g hq]
    · show (if g.queue = [] then g
        else generateLoop fac originals (k + m) (stepOnce fac originals g)) = _
      rw [if_neg hq]
      show _ = generateLoop fac originals k
        (if g.queue = [] then g
          else generateLoop fac originals m (stepOnce fac originals g))
      rw [if_neg hq]
      exact ih (stepOnce fac originals g)

/-- The generation loop preserves the invariant, never shrinks the
population, and never alters an existing person outside its children list. -/
theorem generateLoop_inv (fac : Factory) (originals : List String) (k : Nat)
    (g : GenState) (h : GenInv g) :
    GenInv (generateLoop fac originals k g) ∧
      g.tree.all_people.length ≤
        (generateLoop fac originals k g).tree.all_people.length ∧
      keptBelow g.tree.all_people.length g.tree (generateLoop fac originals k g).tree := by
  induction k generalizing g with
  | zero => exact ⟨h, le_refl _, keptBelow_refl _ _⟩
  | succ m ih =>
    by_cases hq : g.queue = []
    · rw [generateLoop_empty fac originals (m + 1) g hq]
      exact ⟨h, le_refl _, keptBelow_refl _ _⟩
    · obtain ⟨hstep, hsl, hsk⟩ := stepOnce_inv fac originals g h
      obtain ⟨hloop, hll, hlk⟩ := ih (stepOnce fac originals g) hstep
      rw [generateLoop, if_neg hq]
      exact ⟨hloop, by omega, keptBelow_trans hsk (fun i hi => hlk i (by omega))⟩

/-- Fields of the two founders, straight from their definitions. -/
theorem founder_fields (fac : Factory) (r r' : Draws) :
    (founder1 fac r).1.year_born = 1950 ∧ (founder1 fac r).1.partner = some 1 ∧
    (founder1 fac r).1.parents = none ∧ (founder1 fac r).1.first_name = "Desmond" ∧
    (founder1 fac r).1.last_name = "Jones" ∧
    (founder2 fac r').1.year_born = 1950 ∧ (founder2 fac r').1.partner = some 0 ∧
    (founder2 fac r').1.parents = none ∧ (founder2 fac r').1.first_name = "Molly" ∧
    (founder2 fac r').1.last_name = "Smith" :=
  ⟨rfl, rfl, rfl, rfl, rfl, rfl, rfl, rfl, rfl, rfl⟩

/-- The initialized tree holds exactly the two founders. -/
theorem initTree_len (fac : Factory) (r : Draws) :
    (initTree fac r).1.all_people.length = 2 := rfl

/-- The first founder sits at index 0. -/
theorem personAt_initTree_0 (fac : Factory) (r : Draws) :
    personAt (initTree fac r).1 0 = (founder1 fac r).1 := rfl

/-- The second founder sits at index 1. -/
theorem personAt_initTree_1 (fac : Factory) (r : Draws) :
    personAt (initTree fac r).1 1 = (founder2 fac (founder1 fac r).2).1 := rfl

/-- The generation invariant holds as the queue loop starts. -/
theorem genInv_start (fac : Factory) (r : Draws) :
    GenInv ⟨(initTree fac r).1, [0], [], (initTree fac r).2⟩ := by
  obtain ⟨f1y, f1p, f1par, _, _, f2y, f2p, f2par, _, _⟩ :=
    founder_fields fac r (founder1 fac r).2
  refine ⟨?_, ?_, ?_, ?_⟩
  · intro i hi j hj
    rw [initTree_len] at hi
    show j < (initTree fac r).1.all_people.length ∧ _
    rw [initTree_len]
    have : i = 0 ∨ i = 1 := by omega
    rcases this with h | h <;> subst h
    · rw [personAt_initTree_0, f1p] at hj
      have : j = 1 := by injection hj with h; omega
      subst this
      rw [personAt_initTree_0, personAt_initTree_1, f1y, f2y, f2p]
      exact ⟨by omega, rfl, by omega, by omega⟩
    · rw [personAt_initTree_1, f2p] at hj
      have : j = 0 := by injection hj with h; omega
      subst this
      rw [personAt_initTree_0, personAt_initTree_1, f1y, f2y, f1p]
      exact ⟨by omega, rfl, by omega, by omega⟩
  · intro i hi a ob hpcs
    rw [initTree_len] at hi
    have : i = 0 ∨ i = 1 := by omega
    rcases this with h | h <;> subst h
    · rw [personAt_initTree_0, f1par] at hpcs
      exact absurd hpcs (by simp)
    · rw [personAt_initTree_1, f2par] at hpcs
      exact absurd hpcs (by simp)
  · intro id hid
    have : id = 0 := by simpa using hid
    subst this
    show 0 < (initTree fac r).1.all_people.length
    rw [initTree_len]
    omega
  · intro id hid
    have : id = 0 := by simpa using hid
    subst this
    exact Or.inl rfl

/-- The generation invariant holds at (and after) every number of loop
iterations of generate_tree. -/
theorem genStateAt_inv (fac : Factory) (r : Draws) (fuel : Nat) :
    GenInv (genStateAt fac r fuel) := by
  unfold genStateAt
  exact (generateLoop_inv fac _ fuel _ (genInv_start fac r)).1

/-- Generic lifting: a tree property preserved by every child-loop pass is
preserved by one loop iteration. -/
theorem stepOnce_lift (fac : Factory) (originals : List String)
    (P : TreeState → Prop)
    (hpc : ∀ pid partnerOpt (acc : TreeState × List Nat × Draws) y,
      P acc.1 → P (processChild fac originals pid partnerOpt acc y).1)
    (g : GenState) (h : P g.tree) : P (stepOnce fac originals g).tree := by
  rcases hq : g.queue with _ | ⟨pid, rest⟩
  · simp only [stepOnce, hq]
    exact h
  simp only [stepOnce, hq]
  by_cases hproc : g.processed.contains pid
  · rw [if_pos hproc]
    exact h
  rw [if_neg hproc]
  by_cases hn0 : (calculate_num_children fac (personAt g.tree pid).year_born
      (personAt g.tree pid).partner.isSome g.rand).1 = 0
  · rw [if_pos hn0]
    exact h
  rw [if_neg hn0]
  exact foldl_preserve (fun acc => P acc.1)
    (processChild fac originals pid (personAt g.tree pid).partner)
    (distribute_birth_years
      (match (personAt g.tree pid).partner with
        | some pj => min (personAt g.tree pid).year_born (personAt g.tree pj).year_born
        | none => (personAt g.tree pid).year_born)
      (calculate_num_children fac (personAt g.tree pid).year_born
        (personAt g.tree pid).partner.isSome g.rand).1
      (calculate_num_children fac (personAt g.tree pid).year_born
        (personAt g.tree pid).partner.isSome g.rand).2).1
    (g.tree, rest,
      (distribute_birth_years
        (match (personAt g.tree pid).partner with
          | some pj => min (personAt g.tree pid).year_born (personAt g.tree pj).year_born
          | none => (personAt g.tree pid).year_born)
        (calculate_num_children fac (personAt g.tree pid).year_born
          (personAt g.tree pid).partner.isSome g.rand).1
        (calculate_num_children fac (personAt g.tree pid).year_born
          (personAt g.tree pid).partner.isSome g.rand).2).2)
    (fun y _ acc ha => hpc _ _ acc y ha) h

/-- Generic lifting of a stepwise-preserved tree property to the whole loop. -/
theorem generateLoop_lift (fac : Factory) (originals : List String)
    (P : TreeState → Prop)
    (hstep : ∀ g : GenState, P g.tree → P (stepOnce fac originals g).tree)
    (k : Nat) (g : GenState) (h : P g.tree) :
    P (generateLoop fac originals k g).tree := by
  induction k generalizing g with
  | zero => exact h
  | succ m ih =>
    by_cases hq : g.queue = []
    · rw [generateLoop_empty fac originals (m + 1) g hq]
      exact h
    · rw [generateLoop, if_neg hq]
      exact ih (stepOnce fac originals g) (hstep g h)

/-- An in-range index dereferences to a member of the population. -/
theorem personAt_mem (s : TreeState) (i : Nat) (h : i < s.all_people.length) :
    personAt s i ∈ s.all_people := by
  rw [personAt, List.getD_eq_getElem _ _ h]
  exact List.getElem_mem _

/-- Every member of the population sits at some in-range index. -/
theorem mem_personAt (s : TreeState) (p : Person) (h : p ∈ s.all_people) :
    ∃ i, i < s.all_people.length ∧ personAt s i = p := by
  obtain ⟨i, hi, hp⟩ := List.mem_iff_getElem.mp h
  exact ⟨i, hi, by rw [personAt, List.getD_eq_getElem _ _ hi, hp]⟩

/-- Point-wise death-after-birth over the population. -/
def DiedInv (s : TreeState) : Prop :=
  ∀ i, i < s.all_people.length →
    (personAt s i).year_born < (personAt s i).year_died

/-- A child-loop pass keeps death years after birth years, whenever the
life-expectancy table never truncates below 11 years. -/
theorem processChild_died (fac : Factory) (originals : List String) (pid : Nat)
    (partnerOpt : Option Nat) (acc : TreeState × List Nat × Draws) (y : Int)
    (H : ∀ yr : Int, 11 ≤ ratTrunc (fac.life_expectancy yr))
    (h : DiedInv acc.1) :
    DiedInv (processChild fac originals pid partnerOpt acc y).1 := by
  obtain ⟨s, q, r⟩ := acc
  dsimp only at h
  rcases processChild_shape fac originals pid partnerOpt s q r y _ rfl with
    ⟨_, heq⟩ | ⟨_, _, hbound, hkept, hcy, _, _, hcdied, hsplit⟩
  · rw [heq]
    exact h
  intro i hi
  by_cases hiold : i < s.all_people.length
  · have hei := hkept i hiold
    rw [hei.1, hei.2.1]
    exact h i hiold
  by_cases hic : i = s.all_people.length
  · subst hic
    obtain ⟨off, ho1, ho2, hdied⟩ := hcdied
    have := H y
    rw [hcy, hdied]
    omega
  · rcases hsplit with ⟨hL, _, _⟩ | ⟨hL, _, sp, hsp, _, _, _, _, _, _, hspdied, _, _⟩
    · omega
    · have : i = s.all_people.length + 1 := by omega
      subst this
      rw [hsp]
      obtain ⟨off2, ho1, ho2, hdied⟩ := hspdied
      have := H sp.year_born
      rw [hdied]
      omega

/-- Death years of the two founders are after 1950 under the same table
condition. -/
theorem initTree_died (fac : Factory) (r : Draws)
    (H : ∀ yr : Int, 11 ≤ ratTrunc (fac.life_expectancy yr)) :
    DiedInv (initTree fac r).1 := by
  intro i hi
  rw [initTree_len] at hi
  have h1950 := H 1950
  have : i = 0 ∨ i = 1 := by omega
  rcases this with h | h <;> subst h
  · rw [personAt_initTree_0]
    obtain ⟨_, _, _, _, _, ⟨off, ho1, ho2, hd⟩, _, _⟩ :=
      create_person_facts fac 1950 "male" false ["Jones", "Smith"] none r
    show (1950 : Int) < (founder1 fac r).1.year_died
    have : (founder1 fac r).1.year_died =
        (create_person fac 1950 "male" false ["Jones", "Smith"] none r).1.year_died := rfl
    rw [this, hd]
    omega
  · rw [personAt_initTree_1]
    obtain ⟨_, _, _, _, _, ⟨off, ho1, ho2, hd⟩, _, _⟩ :=
      create_person_facts fac 1950 "female" false ["Jones", "Smith"] none
        (founder1 fac r).2
    show (1950 : Int) < (founder2 fac (founder1 fac r).2).1.year_died
    have : (founder2 fac (founder1 fac r).2).1.year_died =
        (create_person fac 1950 "female" false ["Jones", "Smith"] none
          (founder1 fac r).2).1.year_died := rfl
    rw [this, hd]
    omega

/-- Claim C2's property: every individual's death year is strictly after its
birth year. -/
def BornBeforeDiedAll (s : TreeState) : Prop :=
  ∀ p ∈ s.all_people, p.year_born < p.year_died

/-- C2 (amended): if the life-expectancy table never truncates below 11
years, all generated individuals die strictly after their birth, whatever
offsets are drawn.  (The source has no guard: see the counterexample.) -/
theorem claim_c2 (fac : Factory) (r : Draws) (fuel : Nat)
    (H : ∀ yr : Int, 11 ≤ ratTrunc (fac.life_expectancy yr)) :
    BornBeforeDiedAll (runGeneration fac r fuel) := by
  have hinv : DiedInv (runGeneration fac r fuel) := by
    unfold runGeneration genStateAt
    exact generateLoop_lift fac _ DiedInv
      (fun g hg => stepOnce_lift fac _ DiedInv
        (fun pid po acc y ha => processChild_died fac _ pid po acc y H ha) g hg)
      fuel _ (initTree_died fac r H)
  intro p hp
  obtain ⟨i, hi, hpe⟩ := mem_personAt _ p hp
  rw [← hpe]
  exact hinv i hi

/-- Closed witness for C2 (amended) on the concrete factory fac1. -/
theorem claim_c2_witness : BornBeforeDiedAll (runGeneration fac1 r1 10) :=
  claim_c2 fac1 r1 10 (fun yr => le_ratTrunc 11 _ (by norm_num [fac1]))

/-- Counterexample for C2 as stated: with a legal table holding a short life
expectancy (5 years), the founders' drawn offset of -10 makes death-year 1945
precede birth-year 1950 — the computation does not guard against this. -/
theorem claim_c2_counterexample : ¬ BornBeforeDiedAll (runGeneration facBad [] 0) := by
  intro h
  have h0 : (personAt (runGeneration facBad [] 0) 0) ∈
      (runGeneration facBad [] 0).all_people :=
    personAt_mem _ 0 (by with_unfolding_all decide)
  have := h _ h0
  rw [show (personAt (runGeneration facBad [] 0) 0).year_born = 1950 from by
      with_unfolding_all decide,
    show (personAt (runGeneration facBad [] 0) 0).year_died = 1945 from by
      with_unfolding_all decide] at this
  omega

/-- Claim C1's property as stated: every recorded child is born at least 25
years after EACH of its recorded parents. -/
def ChildGap25 (s : TreeState) : Prop :=
  ∀ i, i < s.all_people.length → ∀ a ob, (personAt s i).parents = some (a, ob) →
    (personAt s a).year_born + 25 ≤ (personAt s i).year_born ∧
    (∀ b, ob = some b → (personAt s b).year_born + 25 ≤ (personAt s i).year_born)

/-- Counterexample for C1 as stated: in the concrete run, person 5 (born
2000) has recorded parents 2 and 3, and parent 3 — a married-in spouse born
1985 — is only 15 years older. -/
theorem claim_c1_counterexample : ¬ ChildGap25 (runGeneration fac1 r1 10) := by
  intro h
  have h5 := h 5 (by with_unfolding_all decide) 2 (some 3)
    (by with_unfolding_all decide)
  have hgap := h5.2 3 rfl
  rw [show (personAt (runGeneration fac1 r1 10) 3).year_born = 1985 from by
      with_unfolding_all decide,
    show (personAt (runGeneration fac1 r1 10) 5).year_born = 2000 from by
      with_unfolding_all decide] at hgap
  omega

/-- C1 (amended): every recorded child is born at least 25 years after its
elder recorded parent — hence at least 25 after a single parent — and at
least 15 years after each recorded parent. -/
theorem claim_c1 (fac : Factory) (r : Draws) (fuel : Nat) :
    ChildGapAmended (runGeneration fac r fuel) :=
  (genStateAt_inv fac r fuel).2.1

/-- Closed witness for C1 (amended) on the concrete run. -/
theorem claim_c1_witness :
    ChildGapAmended (runGeneration fac1 r1 10) ∧
    (personAt (runGeneration fac1 r1 10) 5).parents = some (2, some 3) ∧
    (personAt (runGeneration fac1 r1 10) 3).year_born + 15 ≤
      (personAt (runGeneration fac1 r1 10) 5).year_born :=
  ⟨claim_c1 fac1 r1 10, by with_unfolding_all decide, by with_unfolding_all decide⟩

/-- Claim C3's amended property: every queued index is the first founder or a
person with a recorded parent pair — married-in spouses are never enqueued. -/
def QueueOnlyFounderOrChildren (g : GenState) : Prop :=
  ∀ id ∈ g.queue, id = 0 ∨ (personAt g.tree id).parents ≠ none

/-- Counterexample for C3 as stated: after the first loop iteration of the
concrete run, person 3 is a freshly created spouse (partnered to child 2, no
parents), yet the work queue is [2, 4] — the spouse was never appended. -/
theorem claim_c3_counterexample :
    (personAt (genStateAt fac1 r1 1).tree 3).partner = some 2 ∧
    (personAt (genStateAt fac1 r1 1).tree 3).parents = none ∧
    3 < (genStateAt fac1 r1 1).tree.all_people.length ∧
    (genStateAt fac1 r1 1).queue = [2, 4] ∧
    3 ∉ (genStateAt fac1 r1 1).queue := by
  refine ⟨?_, ?_, ?_, ?_, ?_⟩ <;> with_unfolding_all decide

/-- C3 (amended): when a child is created only the child is enqueued (exactly
its own new index); a married-in spouse joins the population but never the
queue, at any point of the generation. -/
theorem claim_c3 :
    (∀ (fac : Factory) (r : Draws) (fuel : Nat),
      QueueOnlyFounderOrChildren (genStateAt fac r fuel)) ∧
    (∀ (fac : Factory) (originals : List String) (pid : Nat)
      (partnerOpt : Option Nat) (s : TreeState) (q : List Nat) (r : Draws) (y : Int),
      ¬2120 < y →
      (processChild fac originals pid partnerOpt (s, q, r) y).2.1 =
        q ++ [s.all_people.length]) := by
  constructor
  · intro fac r fuel
    exact (genStateAt_inv fac r fuel).2.2.2
  · intro fac originals pid partnerOpt s q r y hy
    rcases processChild_shape fac originals pid partnerOpt s q r y _ rfl with
      ⟨hgt, _⟩ | ⟨_, hqeq, _⟩
    · exact absurd hgt hy
    · exact hqeq

/-- Closed witness for C3 (amended): the spouse-creating step of the concrete
run enqueues only child 2. -/
theorem claim_c3_witness :
    QueueOnlyFounderOrChildren (genStateAt fac1 r1 1) ∧
    (processChild fac1 ["Jones", "Smith"] 0 (some 1)
      ((initTree fac1 r1).1, [], (0 : Nat) :: [0, 0, 0, 0, 0, 20, 0, 0, 0, 0]) 1975).2.1 =
      [] ++ [(initTree fac1 r1).1.all_people.length] :=
  ⟨claim_c3.1 fac1 r1 1, claim_c3.2 fac1 ["Jones", "Smith"] 0 (some 1) _ [] _ 1975
    (by norm_num)⟩

/-- Partner references are mutual wherever set. -/
def PartnerSymmetric (s : TreeState) : Prop :=
  ∀ i, i < s.all_people.length → ∀ j, (personAt s i).partner = some j →
    j < s.all_people.length ∧ (personAt s j).partner = some i

/-- A set partner reference survives, unchanged, into a later state. -/
def PartnerStable (s s' : TreeState) : Prop :=
  ∀ i, i < s.all_people.length → ∀ j, (personAt s i).partner = some j →
    (personAt s' i).partner = some j

/-- C7: after any number of loop iterations the partner relation is
symmetric, and whatever partner reference exists at one point still points at
the same individual at every later point. -/
theorem claim_c7 (fac : Factory) (r : Draws) (n m : Nat) (hnm : n ≤ m) :
    PartnerSymmetric (genStateAt fac r n).tree ∧
    PartnerStable (genStateAt fac r n).tree (genStateAt fac r m).tree := by
  constructor
  · intro i hi j hj
    obtain ⟨hjl, hjb, _, _⟩ := (genStateAt_inv fac r n).1 i hi j hj
    exact ⟨hjl, hjb⟩
  · have hdec : genStateAt fac r m =
        generateLoop fac
          [(personAt (initTree fac r).1 0).last_name,
            (personAt (initTree fac r).1 1).last_name] (m - n)
          (genStateAt fac r n) := by
      unfold genStateAt
      rw [← generateLoop_add]
      have : (m - n) + n = m := by omega
      rw [this]
    intro i hi j hj
    have hk := (generateLoop_inv fac
      [(personAt (initTree fac r).1 0).last_name,
        (personAt (initTree fac r).1 1).last_name] (m - n)
      (genStateAt fac r n) (genStateAt_inv fac r n)).2.2
    have := (hk i hi).2.2.2.2.2.1
    rw [hdec, this]
    exact hj

/-- Closed witness for C7 between iteration 3 and iteration 10 of the
concrete run. -/
theorem claim_c7_witness :
    PartnerSymmetric (genStateAt fac1 r1 3).tree ∧
    PartnerStable (genStateAt fac1 r1 3).tree (genStateAt fac1 r1 10).tree :=
  claim_c7 fac1 r1 3 10 (by norm_num)

/-- Claim C10's property: everyone with a recorded parent pair (a child
generated inside generate_tree, created as a descendant) carries one of the
founder surnames; everyone without parents is one of the two founders — with
their fixed names — or a married-in partner whose surname comes from the
ranked surname table of their own birth decade. -/
def SurnameInv (fac : Factory) (s : TreeState) : Prop :=
  ∀ i, i < s.all_people.length →
    ((personAt s i).parents ≠ none →
      (personAt s i).last_name = "Jones" ∨ (personAt s i).last_name = "Smith") ∧
    ((personAt s i).parents = none →
      (i = 0 ∧ (personAt s i).first_name = "Desmond" ∧
        (personAt s i).last_name = "Jones") ∨
      (i = 1 ∧ (personAt s i).first_name = "Molly" ∧
        (personAt s i).last_name = "Smith") ∨
      (personAt s i).last_name ∈
        (fac.last_names_with_frequencies
          (get_decade_string (personAt s i).year_born)).map Prod.fst)

/-- A child-loop pass preserves the surname discipline, given nonempty
surname tables and the founder surname pool. -/
theorem processChild_surname (fac : Factory) (originals : List String)
    (horig : originals = ["Jones", "Smith"])
    (Hn : ∀ d, fac.last_names_with_frequencies d ≠ [])
    (pid : Nat) (partnerOpt : Option Nat) (acc : TreeState × List Nat × Draws)
    (y : Int) (h : SurnameInv fac acc.1) :
    SurnameInv fac (processChild fac originals pid partnerOpt acc y).1 := by
  obtain ⟨s, q, r⟩ := acc
  dsimp only at h
  subst horig
  rcases processChild_shape fac ["Jones", "Smith"] pid partnerOpt s q r y _ rfl with
    ⟨_, heq⟩ | ⟨_, _, hbound, hkept, hcy, hcpar, hcln, _, hsplit⟩
  · rw [heq]
    exact h
  intro i hi
  by_cases hiold : i < s.all_people.length
  · obtain ⟨e1, e2, e3, e4, _, _, e7⟩ := hkept i hiold
    obtain ⟨o1, o2⟩ := h i hiold
    rw [e1, e3, e4, e7]
    exact ⟨o1, o2⟩
  by_cases hic : i = s.all_people.length
  · subst hic
    constructor
    · intro _
      have hmem := hcln (by simp)
      simpa using hmem
    · intro hnone
      rw [hcpar] at hnone
      exact absurd hnone (by simp)
  · rcases hsplit with ⟨hL, _, _⟩ | ⟨hL, _, sp, hsp, _, hsppar, _, _, _, _, _, hspln, _⟩
    · omega
    · have : i = s.all_people.length + 1 := by omega
      subst this
      rw [hsp]
      refine ⟨fun hc => absurd hsppar hc, fun _ => Or.inr (Or.inr ?_)⟩
      exact hspln (Hn _)

/-- The initialized tree satisfies the surname discipline. -/
theorem initTree_surname (fac : Factory) (r : Draws) :
    SurnameInv fac (initTree fac r).1 := by
  obtain ⟨_, _, f1par, f1fn, f1ln, _, _, f2par, f2fn, f2ln⟩ :=
    founder_fields fac r (founder1 fac r).2
  intro i hi
  rw [initTree_len] at hi
  have : i = 0 ∨ i = 1 := by omega
  rcases this with h | h <;> subst h
  · rw [personAt_initTree_0]
    exact ⟨fun hc => absurd f1par hc, fun _ => Or.inl ⟨rfl, f1fn, f1ln⟩⟩
  · rw [personAt_initTree_1]
    exact ⟨fun hc => absurd f2par hc, fun _ => Or.inr (Or.inl ⟨rfl, f2fn, f2ln⟩)⟩

/-- C10: children generated inside generate_tree carry a founder surname
("Jones" or "Smith"); the only other surnames in the population are the
founders' own fixed names and married-in partners' table surnames. -/
theorem claim_c10 (fac : Factory) (r : Draws) (fuel : Nat)
    (Hn : ∀ d, fac.last_names_with_frequencies d ≠ []) :
    SurnameInv fac (runGeneration fac r fuel) := by
  unfold runGeneration genStateAt
  have horig : [(personAt (initTree fac r).1 0).last_name,
      (personAt (initTree fac r).1 1).last_name] = ["Jones", "Smith"] := by
    rw [personAt_initTree_0, personAt_initTree_1]
    rfl
  exact generateLoop_lift fac _ (SurnameInv fac)
    (fun g hg => stepOnce_lift fac _ (SurnameInv fac)
      (fun pid po acc y ha =>
        processChild_surname fac _ horig Hn pid po acc y ha) g hg)
    fuel _ (initTree_surname fac r)

/-- Closed witness for C10 on the concrete run. -/
theorem claim_c10_witness : SurnameInv fac1 (runGeneration fac1 r1 10) :=
  claim_c10 fac1 r1 10 (fun d => by simp [fac1])

/-- Adding an index to the decade buckets grows the total count by one. -/
theorem addToDecade_sum (m : List (String × List Nat)) (d : String) (i : Nat) :
    ((addToDecade m d i).map (fun e => e.2.length)).sum =
      (m.map (fun e => e.2.length)).sum + 1 := by
  induction m with
  | nil => simp [addToDecade]
  | cons e rest ih =>
    by_cases he : e.1 = d
    · simp only [addToDecade, if_pos he, List.map_cons, List.sum_cons,
        List.length_append]
      simp
      omega
    · simp only [addToDecade, if_neg he, List.map_cons, List.sum_cons, ih]
      omega

/-- Membership after adding an index to the decade buckets: an untouched old
bucket, the extended matching bucket, or the fresh bucket. -/
theorem addToDecade_mem (m : List (String × List Nat)) (d : String) (i : Nat) :
    ∀ e ∈ addToDecade m d i,
      e ∈ m ∨ (∃ e0, e0 ∈ m ∧ e0.1 = d ∧ e = (e0.1, e0.2 ++ [i])) ∨ e = (d, [i]) := by
  induction m with
  | nil =>
    intro e he
    simp only [addToDecade, List.mem_singleton] at he
    exact Or.inr (Or.inr he)
  | cons f rest ih =>
    intro e he
    by_cases hf : f.1 = d
    · rw [addToDecade, if_pos hf] at he
      rcases List.mem_cons.mp he with heq | hrest
      · exact Or.inr (Or.inl ⟨f, List.mem_cons_self f rest, hf, heq⟩)
      · exact Or.inl (List.mem_cons_of_mem f hrest)
    · rw [addToDecade, if_neg hf] at he
      rcases List.mem_cons.mp he with heq | hrest
      · exact Or.inl (by rw [heq]; exact List.mem_cons_self f rest)
      · rcases ih e hrest with h1 | ⟨e0, he0, he0d, heq⟩ | h3
        · exact Or.inl (List.mem_cons_of_mem f h1)
        · exact Or.inr (Or.inl ⟨e0, List.mem_cons_of_mem f he0, he0d, heq⟩)
        · exact Or.inr (Or.inr h3)

/-- Old bucket keys survive an addToDecade. -/
theorem addToDecade_keys_sub (m : List (String × List Nat)) (d : String) (i : Nat) :
    ∀ x ∈ m.map Prod.fst, x ∈ (addToDecade m d i).map Prod.fst := by
  induction m with
  | nil => simp
  | cons f rest ih =>
    intro x hx
    rcases List.mem_cons.mp hx with heq | hrest
    · by_cases hf : f.1 = d
      · rw [addToDecade, if_pos hf]
        simp only [List.map_cons, List.mem_cons]
        exact Or.inl heq
      · rw [addToDecade, if_neg hf]
        simp only [List.map_cons, List.mem_cons]
        exact Or.inl heq
    · by_cases hf : f.1 = d
      · rw [addToDecade, if_pos hf]
        simp only [List.map_cons, List.mem_cons]
        rcases List.mem_map.mp hrest with ⟨e, he, hex⟩
        exact Or.inr (List.mem_map.mpr ⟨e, he, hex⟩)
      · rw [addToDecade, if_neg hf]
        simp only [List.map_cons, List.mem_cons]
        exact Or.inr (ih x hrest)

/-- The added key is present after an addToDecade. -/
theorem addToDecade_keys_self (m : List (String × List Nat)) (d : String) (i : Nat) :
    d ∈ (addToDecade m d i).map Prod.fst := by
  induction m with
  | nil => simp [addToDecade]
  | cons f rest ih =>
    by_cases hf : f.1 = d
    · rw [addToDecade, if_pos hf]
      simp only [List.map_cons, List.mem_cons]
      exact Or.inl hf.symm
    · rw [addToDecade, if_neg hf]
      simp only [List.map_cons, List.mem_cons]
      exact Or.inr ih

/-- The decade buckets m are sound for state s: nonempty buckets of valid
indices whose birth decade matches the bucket key. -/
def BucketsOK (s : TreeState) (m : List (String × List Nat)) : Prop :=
  ∀ e ∈ m, e.2 ≠ [] ∧ ∀ id ∈ e.2, id < s.all_people.length ∧
    get_decade_string (personAt s id).year_born = e.1

/-- Sound buckets stay sound when the state only grows (birth years of old
people unchanged). -/
theorem bucketsOK_transport (s res : TreeState) (m : List (String × List Nat))
    (hlen : s.all_people.length ≤ res.all_people.length)
    (hy : ∀ id, id < s.all_people.length →
      (personAt res id).year_born = (personAt s id).year_born)
    (h : BucketsOK s m) : BucketsOK res m := by
  intro e he
  refine ⟨(h e he).1, fun id hid => ?_⟩
  obtain ⟨h1, h2⟩ := (h e he).2 id hid
  exact ⟨by omega, by rw [hy id h1]; exact h2⟩

/-- Registering a valid index under its own birth decade keeps the buckets
sound. -/
theorem bucketsOK_addToDecade (s : TreeState) (m : List (String × List Nat))
    (d : String) (i : Nat) (h : BucketsOK s m) (hlt : i < s.all_people.length)
    (hd : get_decade_string (personAt s i).year_born = d) :
    BucketsOK s (addToDecade m d i) := by
  intro e he
  rcases addToDecade_mem m d i e he with hold | ⟨e0, he0, he0d, heq⟩ | heq
  · exact h e hold
  · subst heq
    refine ⟨by simp, fun id hid => ?_⟩
    rcases List.mem_append.mp hid with h1 | h2
    · exact (h e0 he0).2 id h1
    · have : id = i := by simpa using h2
      subst this
      exact ⟨hlt, by rw [hd, he0d]⟩
  · subst heq
    refine ⟨by simp, fun id hid => ?_⟩
    have : id = i := by simpa using hid
    subst this
    exact ⟨hlt, hd⟩

/-- The decade-bucket invariant: bucket sizes sum to the population size, the
buckets are sound, and every person's birth decade has a bucket. -/
def DecadeInv (s : TreeState) : Prop :=
  ((s.people_by_birth_decade.map (fun e => e.2.length)).sum = s.all_people.length) ∧
  BucketsOK s s.people_by_birth_decade ∧
  (∀ i, i < s.all_people.length →
    get_decade_string (personAt s i).year_born ∈
      s.people_by_birth_decade.map Prod.fst)

/-- A child-loop pass preserves the decade-bucket invariant. -/
theorem processChild_decade (fac : Factory) (originals : List String) (pid : Nat)
    (partnerOpt : Option Nat) (acc : TreeState × List Nat × Draws) (y : Int)
    (h : DecadeInv acc.1) :
    DecadeInv (processChild fac originals pid partnerOpt acc y).1 := by
  obtain ⟨s, q, r⟩ := acc
  dsimp only at h
  obtain ⟨hsum, hbuckets, hkeys⟩ := h
  rcases processChild_shape fac originals pid partnerOpt s q r y _ rfl with
    ⟨_, heq⟩ | ⟨_, _, hbound, hkept, hcy, _, _, _, hsplit⟩
  · rw [heq]
    exact ⟨hsum, hbuckets, hkeys⟩
  set res := processChild fac originals pid partnerOpt (s, q, r) y with hres
  have hyold : ∀ id, id < s.all_people.length →
      (personAt res.1 id).year_born = (personAt s id).year_born :=
    fun id hid => (hkept id hid).1
  rcases hsplit with ⟨hL, _, hdec⟩ | ⟨hL, _, sp, hsp, _, _, _, _, _, _, _, _, hdec⟩
  · refine ⟨?_, ?_, ?_⟩
    · rw [hdec, addToDecade_sum, hsum, hL]
    · rw [hdec]
      refine bucketsOK_addToDecade res.1 _ _ _ ?_ (by omega) (by rw [hcy])
      exact bucketsOK_transport s res.1 _ (by omega) hyold hbuckets
    · intro i hi
      rw [hdec]
      by_cases hiold : i < s.all_people.length
      · rw [hyold i hiold]
        exact addToDecade_keys_sub _ _ _ _ (hkeys i hiold)
      · have : i = s.all_people.length := by omega
        subst this
        rw [hcy]
        exact addToDecade_keys_self _ _ _
  · refine ⟨?_, ?_, ?_⟩
    · rw [hdec, addToDecade_sum, addToDecade_sum, hsum, hL]
    · rw [hdec]
      refine bucketsOK_addToDecade res.1 _ _ _ ?_ (by omega) (by rw [hsp])
      refine bucketsOK_addToDecade res.1 _ _ _ ?_ (by omega) (by rw [hcy])
      exact bucketsOK_transport s res.1 _ (by omega) hyold hbuckets
    · intro i hi
      rw [hdec]
      by_cases hiold : i < s.all_people.length
      · rw [hyold i hiold]
        exact addToDecade_keys_sub _ _ _ _
          (addToDecade_keys_sub _ _ _ _ (hkeys i hiold))
      · by_cases hic : i = s.all_people.length
        · subst hic
          rw [hcy]
          exact addToDecade_keys_sub _ _ _ _ (addToDecade_keys_self _ _ _)
        · have : i = s.all_people.length + 1 := by omega
          subst this
          rw [hsp]
          exact addToDecade_keys_self _ _ _

/-- The initialized tree satisfies the decade-bucket invariant. -/
theorem initTree_decade (fac : Factory) (r : Draws) :
    DecadeInv (initTree fac r).1 := by
  have hdec : (initTree fac r).1.people_by_birth_decade = [("1950s", [0, 1])] := rfl
  refine ⟨?_, ?_, ?_⟩
  · rw [hdec, initTree_len]
    rfl
  · rw [hdec]
    intro e he
    have : e = ("1950s", [0, 1]) := by simpa using he
    subst this
    refine ⟨by simp, fun id hid => ?_⟩
    have : id = 0 ∨ id = 1 := by simpa using hid
    show id < (initTree fac r).1.all_people.length ∧ _
    rw [initTree_len]
    rcases this with h | h <;> subst h
    · exact ⟨by omega, by rw [personAt_initTree_0]; rfl⟩
    · exact ⟨by omega, by rw [personAt_initTree_1]; rfl⟩
  · intro i hi
    rw [initTree_len] at hi
    rw [hdec]
    have : i = 0 ∨ i = 1 := by omega
    rcases this with h | h <;> subst h
    · rw [personAt_initTree_0]
      simp only [List.map_cons, List.map_nil, List.mem_singleton]
      rfl
    · rw [personAt_initTree_1]
      simp only [List.map_cons, List.map_nil, List.mem_singleton]
      rfl

/-- Claim C8's property: the per-decade birth counts sum to the total count,
and the count map's keys are exactly the birth decades present in the
population. -/
def BirthCountSpec (s : TreeState) : Prop :=
  ((get_birth_count_by_decade s).map Prod.snd).sum = get_total_count s ∧
  ∀ d, d ∈ (get_birth_count_by_decade s).map Prod.fst ↔
    ∃ p ∈ s.all_people, get_decade_string p.year_born = d

/-- C8: after generation, summing get_birth_count_by_decade over its decades
gives get_total_count, and its keys are exactly the decades in which someone
in the population was born. -/
theorem claim_c8 (fac : Factory) (r : Draws) (fuel : Nat) :
    BirthCountSpec (runGeneration fac r fuel) := by
  have hinv : DecadeInv (runGeneration fac r fuel) := by
    unfold runGeneration genStateAt
    exact generateLoop_lift fac _ DecadeInv
      (fun g hg => stepOnce_lift fac _ DecadeInv
        (fun pid po acc y ha => processChild_decade fac _ pid po acc y ha) g hg)
      fuel _ (initTree_decade fac r)
  obtain ⟨hsum, hbuckets, hkeys⟩ := hinv
  set s := runGeneration fac r fuel with hs
  constructor
  · rw [get_birth_count_by_decade, get_total_count, List.map_map, ← hsum]
    rfl
  · intro d
    constructor
    · intro hd
      rw [get_birth_count_by_decade, List.map_map] at hd
      obtain ⟨e, he, hed⟩ := List.mem_map.mp hd
      obtain ⟨hne, hmem⟩ := hbuckets e he
      obtain ⟨id, hid⟩ := List.exists_mem_of_ne_nil e.2 hne
      obtain ⟨hlt, hdec'⟩ := hmem id hid
      exact ⟨personAt s id, personAt_mem s id hlt, by rw [hdec']; exact hed⟩
    · intro ⟨p, hp, hpd⟩
      obtain ⟨i, hi, hpe⟩ := mem_personAt s p hp
      have := hkeys i hi
      rw [hpe, hpd] at this
      rw [get_birth_count_by_decade, List.map_map]
      obtain ⟨e, he, hed⟩ := List.mem_map.mp this
      exact List.mem_map.mpr ⟨e, he, hed⟩

/-- First-match lookup of a name's count in the occurrence list. -/
def assocCount : List (String × Nat) → String → Nat
  | [], _ => 0
  | e :: rest, nm => if e.1 = nm then e.2 else assocCount rest nm

/-- One bump raises the bumped name's count by one and no other. -/
theorem assocCount_bumpName (l : List (String × Nat)) (nm x : String) :
    assocCount (bumpName l nm) x =
      if x = nm then assocCount l x + 1 else assocCount l x := by
  induction l with
  | nil =>
    by_cases hx : x = nm
    · subst hx
      simp [bumpName, assocCount]
    · simp [bumpName, assocCount, hx, Ne.symm (by exact hx : ¬x = nm)]
  | cons e rest ih =>
    by_cases he : e.1 = nm
    · by_cases hex : e.1 = x
      · have hxnm : x = nm := by rw [← hex, he]
        simp only [bumpName, if_pos he, assocCount, if_pos hex, if_pos hxnm]
      · have hxnm : ¬x = nm := fun hc => hex (by rw [he, ← hc])
        simp only [bumpName, if_pos he, assocCount, if_neg hex, if_neg hxnm]
    · by_cases hex : e.1 = x
      · have hxnm : ¬x = nm := fun hc => he (by rw [hex, hc])
        simp only [bumpName, if_neg he, assocCount, if_pos hex, if_neg hxnm]
      · simp only [bumpName, if_neg he, assocCount, if_neg hex, ih]

/-- Keys after a bump: the bumped name joins the key set. -/
theorem mem_keys_bumpName (l : List (String × Nat)) (nm x : String) :
    x ∈ (bumpName l nm).map Prod.fst ↔ x ∈ l.map Prod.fst ∨ x = nm := by
  induction l with
  | nil => simp [bumpName]
  | cons e rest ih =>
    by_cases he : e.1 = nm
    · simp only [bumpName, if_pos he, List.map_cons, List.mem_cons, ih]
      constructor
      · rintro (h | h)
        · exact Or.inl (Or.inl h)
        · exact Or.inl (Or.inr h)
      · rintro ((h | h) | h)
        · exact Or.inl h
        · exact Or.inr h
        · exact Or.inl (by rw [h, ← he])
    · simp only [bumpName, if_neg he, List.map_cons, List.mem_cons, ih]
      tauto

/-- A bump never duplicates keys. -/
theorem nodup_keys_bumpName (l : List (String × Nat)) (nm : String)
    (h : (l.map Prod.fst).Nodup) : ((bumpName l nm).map Prod.fst).Nodup := by
  induction l with
  | nil => simp [bumpName]
  | cons e rest ih =>
    rw [List.map_cons, List.nodup_cons] at h
    by_cases he : e.1 = nm
    · rw [bumpName, if_pos he, List.map_cons, List.nodup_cons]
      exact h
    · rw [bumpName, if_neg he, List.map_cons, List.nodup_cons]
      refine ⟨?_, ih h.2⟩
      intro hc
      rcases (mem_keys_bumpName rest nm e.1).mp hc with h1 | h1
      · exact h.1 h1
      · exact he h1

/-- Folding the occurrence counter over a name list counts each name. -/
theorem assocCount_foldl (names : List String) (acc : List (String × Nat))
    (x : String) : assocCount (names.foldl bumpName acc) x =
      assocCount acc x + names.count x := by
  induction names generalizing acc with
  | nil => simp
  | cons nm rest ih =>
    rw [List.foldl_cons, ih, assocCount_bumpName]
    by_cases hx : x = nm
    · subst hx
      rw [if_pos rfl, List.count_cons_self]
      omega
    · rw [if_neg hx, List.count_cons_of_ne hx]

/-- Keys accumulated by the fold are the old keys plus the seen names. -/
theorem mem_keys_foldl (names : List String) (acc : List (String × Nat))
    (x : String) : x ∈ (names.foldl bumpName acc).map Prod.fst ↔
      x ∈ acc.map Prod.fst ∨ x ∈ names := by
  induction names generalizing acc with
  | nil => simp
  | cons nm rest ih =>
    rw [List.foldl_cons, ih, mem_keys_bumpName]
    constructor
    · rintro ((h | h) | h)
      · exact Or.inl h
      · exact Or.inr (by rw [h]; exact List.mem_cons_self nm rest)
      · exact Or.inr (List.mem_cons_of_mem nm h)
    · rintro (h | h)
      · exact Or.inl (Or.inl h)
      · rcases List.mem_cons.mp h with h1 | h1
        · exact Or.inl (Or.inr h1)
        · exact Or.inr h1

/-- The fold keeps the keys duplicate-free. -/
theorem nodup_keys_foldl (names : List String) (acc : List (String × Nat))
    (h : (acc.map Prod.fst).Nodup) :
    ((names.foldl bumpName acc).map Prod.fst).Nodup := by
  induction names generalizing acc with
  | nil => exact h
  | cons nm rest ih =>
    rw [List.foldl_cons]
    exact ih _ (nodup_keys_bumpName acc nm h)

/-- With duplicate-free keys, each entry stores the looked-up count. -/
theorem entry_assocCount (l : List (String × Nat)) (h : (l.map Prod.fst).Nodup) :
    ∀ e ∈ l, e.2 = assocCount l e.1 := by
  induction l with
  | nil => simp
  | cons f rest ih =>
    rw [List.map_cons, List.nodup_cons] at h
    intro e he
    rcases List.mem_cons.mp he with heq | hrest
    · subst heq
      rw [assocCount, if_pos rfl]
    · have hne : ¬f.1 = e.1 := by
        intro hc
        exact h.1 (hc ▸ List.mem_map.mpr ⟨e, hrest, rfl⟩)
      rw [assocCount, if_neg hne]
      exact ih h.2 e hrest

/-- With duplicate-free keys, each present key is an entry with its count. -/
theorem key_entry (l : List (String × Nat)) (h : (l.map Prod.fst).Nodup)
    (x : String) (hx : x ∈ l.map Prod.fst) : (x, assocCount l x) ∈ l := by
  induction l with
  | nil => simp at hx
  | cons f rest ih =>
    rw [List.map_cons, List.nodup_cons] at h
    rcases List.mem_cons.mp hx with heq | hrest
    · rw [assocCount, if_pos heq.symm]
      simp [heq]
    · have hne : ¬f.1 = x := by
        intro hc
        exact h.1 (hc ▸ hrest)
      rw [assocCount, if_neg hne]
      exact List.mem_cons_of_mem f (ih h.2 hrest)

/-- Claim C9's property: find_duplicate_names is strictly sorted (hence each
name appears exactly once) and holds exactly the full names occurring at
least twice; moreover it is invariant under reordering the population. -/
def DuplicateNamesSpec : Prop :=
  (∀ s : TreeState, List.Sorted (· < ·) (find_duplicate_names s) ∧
    ∀ nm, nm ∈ find_duplicate_names s ↔
      2 ≤ (s.all_people.map full_name).count nm) ∧
  (∀ s1 s2 : TreeState, s1.all_people.Perm s2.all_people →
    find_duplicate_names s1 = find_duplicate_names s2)

/-- The unsorted duplicate list before sorting. -/
theorem find_duplicate_names_eq (s : TreeState) :
    find_duplicate_names s = List.insertionSort (fun a b => a ≤ b)
      ((((s.all_people.map full_name).foldl bumpName []).filter
        (fun e => 1 < e.2)).map Prod.fst) := by
  rw [find_duplicate_names, List.foldl_map]

/-- Membership in the unsorted duplicate list is exactly multiplicity two or
more. -/
theorem mem_duplicates_iff (s : TreeState) (nm : String) :
    nm ∈ ((((s.all_people.map full_name).foldl bumpName []).filter
        (fun e => 1 < e.2)).map Prod.fst) ↔
      2 ≤ (s.all_people.map full_name).count nm := by
  have hnodup : ((((s.all_people.map full_name).foldl bumpName [])).map Prod.fst).Nodup :=
    nodup_keys_foldl _ [] (by simp)
  constructor
  · intro h
    obtain ⟨e, he, hex⟩ := List.mem_map.mp h
    rw [List.mem_filter] at he
    have := entry_assocCount _ hnodup e he.1
    rw [assocCount_foldl] at this
    have h1 : 1 < e.2 := by simpa using he.2
    rw [← hex]
    simp only [assocCount] at this
    omega
  · intro h
    have hmem : nm ∈ s.all_people.map full_name :=
      List.count_pos_iff.mp (by omega)
    have hkey : nm ∈ (((s.all_people.map full_name).foldl bumpName [])).map Prod.fst :=
      (mem_keys_foldl _ [] nm).mpr (Or.inr hmem)
    have hentry := key_entry _ hnodup nm hkey
    refine List.mem_map.mpr ⟨(nm, assocCount ((s.all_people.map full_name).foldl
      bumpName []) nm), ?_, rfl⟩
    rw [List.mem_filter]
    refine ⟨hentry, ?_⟩
    rw [assocCount_foldl]
    simp only [assocCount]
    simpa using h

/-- C9: find_duplicate_names returns, in strictly ascending order with no
repeats, exactly the composite full names occurring more than once, and the
result does not depend on the population's insertion order. -/
theorem claim_c9 : DuplicateNamesSpec := by
  have hsorted : ∀ s : TreeState,
      List.Sorted (fun a b => a ≤ b) (find_duplicate_names s) := by
    intro s
    rw [find_duplicate_names_eq]
    exact List.sorted_insertionSort _ _
  have hnodup : ∀ s : TreeState, (find_duplicate_names s).Nodup := by
    intro s
    rw [find_duplicate_names_eq]
    refine List.Perm.nodup ((List.perm_insertionSort _ _).symm) ?_
    refine List.Nodup.sublist (List.Sublist.map Prod.fst (List.filter_sublist _)) ?_
    exact nodup_keys_foldl _ [] (by simp)
  have hmem : ∀ (s : TreeState) (nm : String),
      nm ∈ find_duplicate_names s ↔
        2 ≤ (s.all_people.map full_name).count nm := by
    intro s nm
    rw [find_duplicate_names_eq]
    rw [(List.perm_insertionSort (fun a b => a ≤ b) _).mem_iff]
    exact mem_duplicates_iff s nm
  constructor
  · intro s
    refine ⟨?_, hmem s⟩
    have hs := hsorted s
    have hn := hnodup s
    exact List.Sorted.lt_of_le hs hn
  · intro s1 s2 hperm
    have hcount : ∀ nm, (s1.all_people.map full_name).count nm =
        (s2.all_people.map full_name).count nm :=
      fun nm => (hperm.map full_name).count_eq nm
    have hpm : List.Perm (find_duplicate_names s1) (find_duplicate_names s2) := by
      refine (List.perm_ext_iff_of_nodup (hnodup s1) (hnodup s2)).mpr ?_
      intro nm
      rw [hmem s1 nm, hmem s2 nm, hcount nm]
    exact List.eq_of_perm_of_sorted hpm (hsorted s1) (hsorted s2)

/-- Two-person populations differing only in insertion order. -/
def treeA : TreeState :=
  { all_people := [⟨1950, 2020, "Ann", "Lee", "female", none, [], none⟩,
      ⟨1950, 2020, "Ann", "Lee", "female", none, [], none⟩],
    people_by_birth_decade := [] }

/-- The same two-person population, reversed. -/
def treeB : TreeState :=
  { all_people := [⟨1950, 2020, "Ann", "Lee", "female", none, [], none⟩,
      ⟨1950, 2020, "Ann", "Lee", "female", none, [], none⟩],
    people_by_birth_decade := [("1950s", [0, 1])] }

/-- Closed witness for C9: sortedness and membership on the concrete run, and
order-invariance on a two-person population. -/
theorem claim_c9_witness :
    List.Sorted (fun a b => a < b) (find_duplicate_names (runGeneration fac1 r1 10)) ∧
    ("Alex Jones" ∈ find_duplicate_names (runGeneration fac1 r1 10) ↔
      2 ≤ ((runGeneration fac1 r1 10).all_people.map full_name).count "Alex Jones") ∧
    find_duplicate_names treeA = find_duplicate_names treeB :=
  ⟨(claim_c9.1 (runGeneration fac1 r1 10)).1,
    (claim_c9.1 (runGeneration fac1 r1 10)).2 "Alex Jones",
    claim_c9.2 treeA treeB (by decide)⟩

/-- Closed witness for C8 on the concrete run. -/
theorem claim_c8_witness : BirthCountSpec (runGeneration fac1 r1 10) :=
  claim_c8 fac1 r1 10
